import Mathlib

/-!
# Cannapedia retrieval / gating pipeline — shallow embedding

This file embeds the core TypeScript modules of the cannapedia repository in
Lean 4 and proves (or refutes) the frozen specification claims about them:

* `rag-retriever` (term expansion, article scoring, chunking, retrieval),
* `product-matcher` (`findProducts` with its deterministic pseudo-shuffle),
* `fact-checker` (`factCheck` and `classifyRisk`),
* the bulk-generation driver's verification gate and review notification,
* the published-concept store (`concepts.ts`).

JavaScript strings are embedded as `List Char`; JavaScript numbers are
embedded as `Int` where the source only ever holds integers and as `Rat`
where fractional multipliers occur.  All definitions are executable and
kernel-reducible (structural recursion only), so concrete runs can be
checked with `decide`.
-/

/-- JavaScript string, embedded as a list of characters. -/
abbrev JStr := List Char

/-- Characters of a Lean string literal, for writing concrete `JStr` values. -/
def chars (s : String) : JStr := s.data

/-- Embedding: `String.prototype.toLowerCase` on one character (basic-latin range, which
is the range the source's inputs exercise; other characters map to
themselves, as in JavaScript for Hebrew text). -/
def jsLowerChar (c : Char) : Char :=
  if h : 65 ≤ c.toNat ∧ c.toNat ≤ 90 then
    ⟨UInt32.ofNat (c.toNat + 32), by
      refine Or.inl ?_
      have hsz : UInt32.size = 4294967296 := rfl
      have hlt : c.toNat + 32 < UInt32.size := by omega
      have htn : (UInt32.ofNat (c.toNat + 32)).toNat = c.toNat + 32 :=
        UInt32.toNat_ofNat_of_lt hlt
      show (UInt32.ofNat (c.toNat + 32)).toNat < 55296
      omega⟩
  else c

/-- Embedding: `String.prototype.toLowerCase`. -/
def jsToLower (s : JStr) : JStr := s.map jsLowerChar

/-- Drop whitespace characters from the tail of a string. -/
def dropEndWS (s : JStr) : JStr := ((s.reverse).dropWhile Char.isWhitespace).reverse

/-- Embedding: `String.prototype.trim`: drop whitespace from both ends. -/
def jsTrim (s : JStr) : JStr := dropEndWS (s.dropWhile Char.isWhitespace)

/-- Whether `pat` occurs at the start of `s`. -/
def leadsWith : JStr → JStr → Bool
  | [], _ => true
  | _ :: _, [] => false
  | a :: as, b :: bs => a = b && leadsWith as bs

/-- Embedding: `String.prototype.includes`: whether `sub` occurs somewhere in `s`. -/
def jsIncludes (sub : JStr) : JStr → Bool
  | [] => leadsWith sub []
  | c :: rest => leadsWith sub (c :: rest) || jsIncludes sub rest

/-- Embedding: `String.prototype.endsWith`. -/
def jsEndsWith (suffix s : JStr) : Bool := leadsWith suffix.reverse s.reverse

/-- Embedding: `s.split("/")` — split on a single-character separator. -/
def splitChar (sep : Char) : JStr → List JStr
  | [] => [[]]
  | c :: rest =>
    if c = sep then [] :: splitChar sep rest
    else
      match splitChar sep rest with
      | [] => [[c]]
      | p :: ps => (c :: p) :: ps

/-- Prepend a character to the first piece of a split result (the
"accumulate into the current piece" step shared by the splitters). -/
def consPiece (c : Char) : List JStr → List JStr
  | [] => [[c]]
  | p :: ps => (c :: p) :: ps

/-- Embedding: `s.split(" - ")` — the only multi-character literal separator used by
`expandTerms`; the three-character separator is tested structurally. -/
def splitDash : JStr → List JStr
  | [] => [[]]
  | [c] => [[c]]
  | [c, d] => [[c, d]]
  | c :: d :: e :: rest =>
    if c = ' ' ∧ d = '-' ∧ e = ' ' then [] :: splitDash rest
    else consPiece c (splitDash (d :: e :: rest))

/-- Embedding: `s.includes(" - ")`. -/
def includesDash : JStr → Bool
  | ' ' :: '-' :: ' ' :: _ => true
  | _ :: rest => includesDash rest
  | [] => false

/-- Generic `s.split(sep)` (JavaScript semantics), fuelled so that it is
structurally recursive and kernel-computable; `jsSplitStr` supplies
`s.length` as fuel, which always suffices. -/
def splitStrFuel (sep : JStr) : Nat → JStr → List JStr
  | 0, s => [s]
  | _ + 1, [] => [[]]
  | fuel + 1, c :: rest =>
    if leadsWith sep (c :: rest) then
      [] :: splitStrFuel sep fuel ((c :: rest).drop sep.length)
    else
      match splitStrFuel sep fuel rest with
      | [] => [[c]]
      | p :: ps => (c :: p) :: ps

/-- Embedding: `s.split(sep)` with JavaScript semantics (`"".split("") = []`,
`"abc".split("") = ["a","b","c"]`). -/
def jsSplitStr (sep s : JStr) : List JStr :=
  if sep = [] then s.map (fun c => [c])
  else splitStrFuel sep s.length s

/-- Embedding: `s.split(sep).length - 1`: the non-overlapping occurrence count used by
the scorer (`Int` because JavaScript subtraction is unchecked). -/
def countOcc (sep s : JStr) : Int := (jsSplitStr sep s).length - 1

/-- Embedding: `s.split(/\n{2,}/)`: split on maximal runs of at least two newlines.
Implemented as a one-pass machine over the characters: `acc` is the current
piece reversed, `pending` counts newline characters seen but not yet
committed to either the piece or a separator. -/
def splitNNGo : JStr → JStr → Nat → List JStr
  | [], acc, pending =>
    if 2 ≤ pending then [acc.reverse, []]
    else [(List.replicate pending '\n' ++ acc).reverse]
  | c :: rest, acc, pending =>
    if c = '\n' then splitNNGo rest acc (pending + 1)
    else if 2 ≤ pending then acc.reverse :: splitNNGo rest [c] 0
    else splitNNGo rest (c :: List.replicate pending '\n' ++ acc) 0

/-- Embedding: `s.split(/\n{2,}/)` (the paragraph splitter of `chunkArticle`). -/
def splitNN (s : JStr) : List JStr := splitNNGo s [] 0

/-- Embedding: `s.split(/\s+/)`: split on maximal runs of whitespace (the word counter
used by the chunker). Same machine as `splitNN` with run length 1. -/
def splitWSGo : JStr → JStr → Bool → List JStr
  | [], acc, pending =>
    if pending then [acc.reverse, []] else [acc.reverse]
  | c :: rest, acc, pending =>
    if c.isWhitespace then splitWSGo rest acc true
    else if pending then acc.reverse :: splitWSGo rest [c] false
    else splitWSGo rest (c :: acc) false

/-- Embedding: `s.split(/\s+/)`. -/
def splitWS (s : JStr) : List JStr := splitWSGo s [] false

/-- Embedding: `para.split(/\s+/).length`, the chunker's word count of a paragraph. -/
def jsWordCount (s : JStr) : Nat := (splitWS s).length

/-- First match of the regex `\(([^)]+)\)` in `s`: returns
`(pre, inner, post)` with `s = pre ++ "(" ++ inner ++ ")" ++ post`, scanning
match start positions left to right as the regex engine does. -/
def findParen : JStr → Option (JStr × JStr × JStr)
  | [] => none
  | c :: rest =>
    if c = '(' then
      let inner := rest.takeWhile (fun d => d ≠ ')')
      match rest.dropWhile (fun d => d ≠ ')') with
      | ')' :: post =>
        if inner.length = 0 then
          (findParen rest).map (fun t => (c :: t.1, t.2.1, t.2.2))
        else
          some ([], inner, post)
      | _ => (findParen rest).map (fun t => (c :: t.1, t.2.1, t.2.2))
    else (findParen rest).map (fun t => (c :: t.1, t.2.1, t.2.2))

/-- Worker for `firstDedup`: keeps elements not yet seen, in order. -/
def firstDedupGo : List JStr → List JStr → List JStr
  | [], _ => []
  | t :: rest, seen =>
    if t ∈ seen then firstDedupGo rest seen
    else t :: firstDedupGo rest (t :: seen)

/-- De-duplication keeping first occurrences, in order: the observable
behaviour of `[...new Set(list)]` in JavaScript. -/
def firstDedup (l : List JStr) : List JStr := firstDedupGo l []

/-- Embedding: `parts.filter(Boolean).join(sep)` for strings. -/
def joinSep (sep : JStr) : List JStr → JStr
  | [] => []
  | [p] => p
  | p :: q :: rest => p ++ sep ++ joinSep sep (q :: rest)

/-!
## Term expansion (`expandTerms`, rag-retriever)
-/

/-- The terms pushed for one raw item of `expandTerms`'s loop body, in push
order: the lowercased/trimmed base; for a parenthetical, its inner text and
the string with the parenthetical removed; the " - " and "/" split parts. -/
def processItem (item : JStr) : List JStr :=
  let base := jsTrim (jsToLower item)
  if base.length < 2 then []
  else
    [base]
    ++ (match findParen base with
        | some (pre, inner, post) => [jsTrim inner, jsTrim (pre ++ post)]
        | none => [])
    ++ (if includesDash base then (splitDash base).map jsTrim else [])
    ++ (if jsIncludes (chars "/") base then (splitChar '/' base).map jsTrim else [])

/-- Embedding: `expandTerms` from rag-retriever: expand every raw alias/name string and
return the de-duplicated list of all terms of length ≥ 2. -/
def expandTerms (raw : List JStr) : List JStr :=
  firstDedup ((raw.flatMap processItem).filter (fun t => 2 ≤ t.length))

/-!
## Data model (rag-retriever)
-/

/-- Result of `new Date(article.date)` as the retriever observes it:
`time` is `getTime()` (milliseconds), `year` is `getFullYear()`, and
`valid` records whether the date string parsed (when `false`,
`getFullYear()` is `NaN`, which the scorer's `|| 2015` replaces). -/
structure JsDate where
  time : Int
  year : Int
  valid : Bool
deriving DecidableEq, Repr

/-- Embedding: `new Date(article.date).getFullYear() || 2015`: the fallback fires when
the year is `NaN` (unparsable date) — or `0`, the only other falsy number. -/
def yearOr2015 (d : JsDate) : Int :=
  if d.valid = false ∨ d.year = 0 then 2015 else d.year

/-- An archived magazine article, after `loadArchive`'s filtering. -/
structure ArchiveArticle where
  id : Int
  date : JsDate
  link : JStr
  title : JStr
  content : JStr
  excerpt : JStr
  tags : List Int
  wordCount : Int
deriving DecidableEq, Repr

/-- The ephemeral per-article score record built by `scoreArticle`. -/
structure ArticleScore where
  article : ArchiveArticle
  titleTagScore : Int
  contentScore : Int
  baseScore : Int
  recencyMultiplier : Rat
  prPenalty : Rat
  broadPenalty : Rat
  finalScore : Rat
  isSpecific : Bool
deriving DecidableEq, Repr

/-!
## Archive scorer (`scoreArticle`, rag-retriever)
-/

/-- Accumulator state of `scoreArticle`'s term loops. -/
structure ScanAcc where
  titleTag : Int
  content : Int
  density : Int
  flag : Bool
deriving DecidableEq, Repr

/-- One iteration of `scoreArticle`'s term loop: title hit is worth 100,
content occurrences 2 points each capped at 20, `flag` becomes true on any
hit; with `withDensity` (the specific-term loop only) three or more content
occurrences set the density boost to a flat 40. -/
def scanStep (titleLower contentLower : JStr) (withDensity : Bool)
    (st : ScanAcc) (term : JStr) : ScanAcc :=
  let st1 :=
    if jsIncludes term titleLower then
      { st with titleTag := st.titleTag + 100, flag := true }
    else st
  let occ := countOcc term contentLower
  let st2 := { st1 with content := st1.content + min (occ * 2) 20 }
  let st3 := if 0 < occ then { st2 with flag := true } else st2
  if withDensity && decide (3 ≤ occ) then { st3 with density := 40 } else st3

/-- The specific-term loop of `scoreArticle`, starting from zero scores;
its `flag` is `hasSpecificMatch`. -/
def scanSpecific (titleLower contentLower : JStr) (specificTerms : List JStr) : ScanAcc :=
  specificTerms.foldl (scanStep titleLower contentLower true)
    { titleTag := 0, content := 0, density := 0, flag := false }

/-- The broad-term loop of `scoreArticle`, continuing the accumulators of
the specific loop but with a fresh flag (`hasBroadMatch`) and no density
boost. -/
def scanBroad (titleLower contentLower : JStr) (st : ScanAcc) (broadTerms : List JStr) : ScanAcc :=
  broadTerms.foldl (scanStep titleLower contentLower false) { st with flag := false }

/-- Exact rational multiplication, written through `mkRat` so that it is
kernel-computable; provably equal to `Rat` multiplication
(`ratMul_eq`). -/
def ratMul (a b : Rat) : Rat := mkRat (a.num * b.num) (a.den * b.den)

/-- Exact rational addition through `mkRat`; provably equal to `Rat`
addition (`ratAdd_eq`). -/
def ratAdd (a b : Rat) : Rat := mkRat (a.num * b.den + b.num * a.den) (a.den * b.den)

/-- The rational value of an integer, through `mkRat`. -/
def intToRat (n : Int) : Rat := mkRat n 1

/-- Lemma: `ratMul` is `Rat` multiplication. -/
theorem ratMul_eq (a b : Rat) : ratMul a b = a * b := by
  conv_rhs => rw [← Rat.mkRat_self a, ← Rat.mkRat_self b]
  rw [Rat.mkRat_mul_mkRat]
  rfl

/-- Lemma: `ratAdd` is `Rat` addition. -/
theorem ratAdd_eq (a b : Rat) : ratAdd a b = a + b := (Rat.add_def' a b).symm

/-- Lemma: `intToRat` is the integer cast. -/
theorem intToRat_eq (n : Int) : intToRat n = (n : Rat) := Rat.mkRat_one n

/-- Embedding: `hasBroadMatch` as computed by `scoreArticle` for an article. -/
def hasBroadMatch (article : ArchiveArticle) (specificTerms broadTerms : List JStr) : Bool :=
  (scanBroad (jsToLower article.title) (jsToLower article.content)
    (scanSpecific (jsToLower article.title) (jsToLower article.content) specificTerms)
    broadTerms).flag

/-- Embedding: `scoreArticle` from rag-retriever: recency-weighted, title-first scoring
with PR and broad penalties.  Fractional multipliers are embedded as exact
rationals (`0.1 = mkRat 1 10`, etc.). -/
def scoreArticle (article : ArchiveArticle) (specificTerms broadTerms : List JStr) :
    ArticleScore :=
  let titleLower := jsToLower article.title
  let contentLower := jsToLower article.content
  let sSpec := scanSpecific titleLower contentLower specificTerms
  let sBroad := scanBroad titleLower contentLower sSpec broadTerms
  let baseScore := sBroad.titleTag + sBroad.content + sBroad.density
  if baseScore = 0 then
    { article, titleTagScore := 0, contentScore := 0, baseScore := 0,
      recencyMultiplier := 1, prPenalty := 1, broadPenalty := 1,
      finalScore := 0, isSpecific := false }
  else
    let year := yearOr2015 article.date
    let recencyMultiplier : Rat := ratAdd 1 (ratMul (intToRat (year - 2010)) (mkRat 1 10))
    let prPenalty : Rat := if sBroad.titleTag = 0 then mkRat 1 2 else 1
    let broadPenalty : Rat :=
      if sSpec.flag = false && sBroad.flag then mkRat 3 10 else 1
    let finalScore :=
      ratMul (ratMul (ratMul (intToRat baseScore) recencyMultiplier) prPenalty) broadPenalty
    { article, titleTagScore := sBroad.titleTag, contentScore := sBroad.content,
      baseScore, recencyMultiplier, prPenalty, broadPenalty, finalScore,
      isSpecific := sSpec.flag }

/-!
## Chunker (`chunkArticle`, rag-retriever)
-/

/-- Embedding: `CHUNK_TARGET_WORDS` from rag-retriever. -/
def CHUNK_TARGET_WORDS : Nat := 400

/-- Embedding: `MAX_CHUNKS_PER_ARTICLE` from rag-retriever. -/
def MAX_CHUNKS_PER_ARTICLE : Nat := 3

/-- Paragraphs of `chunkArticle`: blank-line-delimited, trimmed, and kept
only when strictly longer than 30 characters. -/
def paragraphsOf (content : JStr) : List JStr :=
  ((splitNN content).map jsTrim).filter (fun p => 30 < p.length)

/-- The paragraph-accumulation loop of `chunkArticle`, including the
`break` once `MAX_CHUNKS_PER_ARTICLE` chunks exist.  Returns the closed
chunks and the running chunk at loop exit. -/
def chunkLoop : List JStr → List JStr → JStr → Nat → List JStr × JStr
  | [], chunks, cur, _ => (chunks, cur)
  | para :: rest, chunks, cur, curWords =>
    let paraWords := jsWordCount para
    if CHUNK_TARGET_WORDS < curWords + paraWords && !cur.isEmpty then
      let chunks2 := chunks ++ [jsTrim cur]
      if MAX_CHUNKS_PER_ARTICLE ≤ chunks2.length then (chunks2, [])
      else chunkLoop rest chunks2 (para ++ chars "\n\n") paraWords
    else chunkLoop rest chunks (cur ++ para ++ chars "\n\n") (curWords + paraWords)

/-- Embedding: `chunkArticle` from rag-retriever.  When no paragraph survives the
noise filter the raw content is returned as a single chunk (the truncating
fallback on the function's last line is unreachable, see
`chunkLoop_closes_nonempty`). -/
def chunkArticle (article : ArchiveArticle) : List JStr :=
  let content := article.content
  let paragraphs := paragraphsOf content
  if paragraphs.isEmpty then [content]
  else
    let res := chunkLoop paragraphs [] [] 0
    let chunks2 :=
      if !(jsTrim res.2).isEmpty && res.1.length < MAX_CHUNKS_PER_ARTICLE then
        res.1 ++ [jsTrim res.2]
      else res.1
    if 0 < chunks2.length then chunks2
    else [content.take (CHUNK_TARGET_WORDS * 6)]

/-!
## Stable sort (JavaScript `Array.prototype.sort`)

JavaScript's sort is stable and, for a consistent comparator, sorts by it.
It is embedded as a stable insertion sort: an element moves past an already
placed element only when it is strictly smaller under the comparator, which
is exactly the observable stable-sort behaviour.
-/

/-- Insert `a` into `l`, passing over exactly the elements strictly smaller
than `a` under the boolean order `le` (so equal elements keep their
original relative order). -/
def insertLe (le : α → α → Bool) (a : α) : List α → List α
  | [] => [a]
  | b :: bs => if le b a && !le a b then b :: insertLe le a bs else a :: b :: bs

/-- Stable sort by the boolean order `le` (insertion sort). -/
def jsSortStable (le : α → α → Bool) : List α → List α
  | [] => []
  | a :: as => insertLe le a (jsSortStable le as)

/-!
## Retrieval orchestrator (`retrieve`, rag-retriever)
-/

/-- A retrieved chunk: a slice of one article, tagged with the parent
article's id/title/url/date and its index within that article. -/
structure RetrievedChunk where
  articleId : Int
  articleTitle : JStr
  articleUrl : JStr
  articleDate : JsDate
  chunkIndex : Nat
  text : JStr
  wordCount : Nat
deriving DecidableEq, Repr

/-- An entry of the retriever's deduplicated source list. -/
structure SourceRef where
  title : JStr
  url : JStr
  date : JsDate
deriving DecidableEq, Repr

/-- The orchestrator's output record. -/
structure RetrievalResult where
  query : JStr
  aliases : List JStr
  totalArticlesScanned : Nat
  matchedArticles : Nat
  tier1Articles : Nat
  tier2Articles : Nat
  chunks : List RetrievedChunk
  sources : List SourceRef
deriving DecidableEq, Repr

/-- The chunk record built for text chunk number `idx` of a selected
article. -/
def mkChunk (entry : ArticleScore) (idx : Nat) (text : JStr) : RetrievedChunk :=
  { articleId := entry.article.id, articleTitle := entry.article.title,
    articleUrl := entry.article.link, articleDate := entry.article.date,
    chunkIndex := idx, text := text, wordCount := jsWordCount text }

/-- The inner chunk-appending loop of `retrieve`, with the `break` once the
flat list reaches `maxTotalChunks` (checked after each push). -/
def appendChunks (entry : ArticleScore) (maxTotalChunks : Nat) :
    List JStr → Nat → List RetrievedChunk → List RetrievedChunk
  | [], _, acc => acc
  | text :: rest, idx, acc =>
    let acc2 := acc ++ [mkChunk entry idx text]
    if maxTotalChunks ≤ acc2.length then acc2
    else appendChunks entry maxTotalChunks rest (idx + 1) acc2

/-- The outer chunk-collection loop of `retrieve` over the selected
articles, with the same cap check after each article. -/
def collectChunks (maxTotalChunks : Nat) :
    List ArticleScore → List RetrievedChunk → List RetrievedChunk
  | [], acc => acc
  | entry :: rest, acc =>
    let acc2 := appendChunks entry maxTotalChunks (chunkArticle entry.article) 0 acc
    if maxTotalChunks ≤ acc2.length then acc2
    else collectChunks maxTotalChunks rest acc2

/-- The source record projected from a chunk. -/
def mkSourceRef (c : RetrievedChunk) : SourceRef :=
  { title := c.articleTitle, url := c.articleUrl, date := c.articleDate }

/-- One step of the `sourceMap` build: a JavaScript `Map` keyed by
`articleId` appends a new (key, value) pair only when the key is absent,
preserving insertion order. -/
def insertIfAbsent (m : List (Int × SourceRef)) (c : RetrievedChunk) :
    List (Int × SourceRef) :=
  if m.any (fun kv => kv.1 = c.articleId) then m
  else m ++ [(c.articleId, mkSourceRef c)]

/-- The `sourceMap` of `retrieve` as an insertion-ordered association
list. -/
def buildSourceMap (chunks : List RetrievedChunk) : List (Int × SourceRef) :=
  chunks.foldl insertIfAbsent []

/-- Embedding: `Array.from(sourceMap.values())`. -/
def sourcesOf (chunks : List RetrievedChunk) : List SourceRef :=
  (buildSourceMap chunks).map (fun kv => kv.2)

/-- Chunk comparison used by `retrieve`'s final chronological sort:
`new Date(a.articleDate).getTime() - new Date(b.articleDate).getTime()`. -/
def chunkDateLe (a b : RetrievedChunk) : Bool :=
  a.articleDate.time ≤ b.articleDate.time

/-- Score comparison used by `retrieve`'s relevance sort (descending). -/
def scoreDescLe (a b : ArticleScore) : Bool := b.finalScore ≤ a.finalScore

/-- Embedding: `retrieve` from rag-retriever, with the loaded archive passed
explicitly (the file system is an input of the embedding). -/
def retrieve (archive : List ArchiveArticle) (conceptName : JStr)
    (aliases broadTerms : List JStr) (maxArticles maxTotalChunks : Nat) :
    RetrievalResult :=
  let specificTerms := expandTerms (conceptName :: aliases)
  let broadExpanded := expandTerms broadTerms
  let scored := (archive.map
      (fun a => scoreArticle a specificTerms broadExpanded)).filter
    (fun s => 0 < s.finalScore)
  let sorted := jsSortStable scoreDescLe scored
  let topArticles := sorted.take maxArticles
  let specificCount := (topArticles.filter (fun s => s.isSpecific)).length
  let allChunks := collectChunks maxTotalChunks topArticles []
  let sortedChunks := jsSortStable chunkDateLe allChunks
  { query := conceptName,
    aliases := firstDedup (specificTerms ++ broadExpanded),
    totalArticlesScanned := archive.length,
    matchedArticles := topArticles.length,
    tier1Articles := specificCount,
    tier2Articles := topArticles.length - specificCount,
    chunks := sortedChunks,
    sources := sourcesOf sortedChunks }

/-!
## Product relevance matcher (`findProducts`, product-matcher)
-/

/-- Embedding: `FLOWER_CATEGORIES` from the product matcher. -/
def FLOWER_CATEGORIES : List JStr := [chars "תפרחות", chars "flowers", chars "פרחים"]

/-- Embedding: `MAX_PRODUCTS` from the product matcher. -/
def MAX_PRODUCTS : Nat := 4

/-- One catalog entry (`attrValues` is `Object.values(entry.attributes)` in
iteration order). -/
structure CatalogEntry where
  slug : JStr
  name : JStr
  attrValues : List JStr
  tags : List JStr
  categories : List JStr
  link : JStr
  stockStatus : Option JStr
deriving DecidableEq, Repr

/-- The product record returned by `findProducts`. -/
structure MatchedProduct where
  slug : JStr
  name : JStr
  attrValues : List JStr
  tags : List JStr
  categories : List JStr
  link : JStr
deriving DecidableEq, Repr

/-- A catalog entry paired with its relevance score. -/
structure ScoredEntry where
  entry : CatalogEntry
  score : Int
deriving DecidableEq, Repr

/-- The attribute loop of `findProducts`: +10 for the first attribute value
containing any query, then break. -/
def attrScorePoints (queries vals : List JStr) : Int :=
  if vals.any (fun v => queries.any (fun q => jsIncludes q (jsToLower v))) then 10 else 0

/-- The tag loop of `findProducts`: +8 per tag containing a query, with a
break as soon as the running entry score reaches 18 (checked after every
tag, matching or not). -/
def tagLoop (queries : List JStr) : List JStr → Int → Int
  | [], score => score
  | tag :: rest, score =>
    let score2 :=
      if queries.any (fun q => jsIncludes q (jsToLower tag)) then score + 8 else score
    if 18 ≤ score2 then score2 else tagLoop queries rest score2

/-- The per-entry score of `findProducts` before the zero filter: attribute
points, tag points, and +3 for a name hit. -/
def entryScore (queries : List JStr) (e : CatalogEntry) : Int :=
  let s1 := attrScorePoints queries e.attrValues
  let s2 := tagLoop queries e.tags s1
  if queries.any (fun q => jsIncludes q (jsToLower e.name)) then s2 + 3 else s2

/-- Whether the entry's categories mark it as a flower/bud product. -/
def isFlower (e : CatalogEntry) : Bool :=
  e.categories.any (fun c => FLOWER_CATEGORIES.any (fun fc => jsIncludes fc (jsToLower c)))

/-- Scoring of one in-stock entry: entries scoring 0 are dropped; surviving
entries get +5 when flower-flagged. -/
def scoreEntry (queries : List JStr) (e : CatalogEntry) : Option ScoredEntry :=
  let s := entryScore queries e
  if s = 0 then none
  else some { entry := e, score := if isFlower e then s + 5 else s }

/-- Embedding: `[pool[i], pool[j]] = [pool[j], pool[i]]` on lists (both indexes are in
bounds whenever the shuffle uses it). -/
def listSwap (l : List α) (i j : Nat) : List α :=
  match l[i]?, l[j]? with
  | some x, some y => (l.set i y).set j x
  | _, _ => l

/-- The deterministic pseudo-shuffle loop of `findProducts`, iterating
`i = pool.length-1, …, 1` and swapping position `i` with position
`(score_i * 31 + i * 17) % (i + 1)`. -/
def shuffleGo : List ScoredEntry → Nat → List ScoredEntry
  | pool, 0 => pool
  | pool, Nat.succ k =>
    let i := Nat.succ k
    match pool[i]? with
    | none => shuffleGo pool k
    | some e =>
      let j := ((e.score * 31 + (i : Int) * 17) % ((i : Int) + 1)).toNat
      shuffleGo (listSwap pool i j) k

/-- Modelled from the spec's words, for comparison with `shuffleGo`: "swap
position i with position `(score_i × 31 + i × 17) mod (i+1)` for i from the
end down to 1 — a Fisher-Yates-shaped shuffle using a score-derived
pseudo-random index". -/
def specPseudoShuffle (pool : List ScoredEntry) : List ScoredEntry :=
  specGo pool (pool.length - 1)
where
  /-- Walk `i` from the end down; at each `i`, swap `i` with the
  score-derived index modulo `i + 1`. -/
  specGo : List ScoredEntry → Nat → List ScoredEntry
  | p, 0 => p
  | p, Nat.succ k =>
    match p[Nat.succ k]? with
    | none => specGo p k
    | some e =>
      specGo
        (listSwap p (Nat.succ k)
          ((e.score * 31 + (Nat.succ k : Int) * 17) % ((Nat.succ k : Int) + 1)).toNat)
        k

/-- Embedding: `findProducts` from the product matcher, with the catalog snapshot
passed explicitly (the matcher re-reads it from disk on every call; absence
or parse failure yields the empty catalog). -/
def findProducts (catalog : List CatalogEntry) (searchAliases : List JStr) :
    List MatchedProduct :=
  if searchAliases.isEmpty then []
  else if catalog.isEmpty then []
  else
    let inStock := catalog.filter
      (fun e => e.stockStatus = none || e.stockStatus = some (chars "instock"))
    if inStock.isEmpty then []
    else
      let queries := (searchAliases.map (fun a => jsTrim (jsToLower a))).filter
        (fun q => 2 ≤ q.length)
      let scored := inStock.filterMap (scoreEntry queries)
      if scored.isEmpty then []
      else
        let sorted := jsSortStable (fun a b => b.score ≤ a.score) scored
        let pool := sorted.take (Nat.min sorted.length (MAX_PRODUCTS * 2))
        let shuffled := shuffleGo pool (pool.length - 1)
        (shuffled.take MAX_PRODUCTS).map (fun s =>
          { slug := s.entry.slug, name := s.entry.name,
            attrValues := s.entry.attrValues, tags := s.entry.tags,
            categories := s.entry.categories, link := s.entry.link })

/-!
## Fact checker (`classifyRisk` / `factCheck`, fact-checker)
-/

/-- Risk classification levels. -/
inductive RiskLevel where
  | high
  | medium
  | low
deriving DecidableEq, Repr

/-- Embedding: `HIGH_RISK_KEYWORDS` from the fact checker. -/
def HIGH_RISK_KEYWORDS : List JStr :=
  [chars "רגולציה", chars "משפט", chars "חוק", chars "רפואי", chars "אסדרה",
   chars "קנס", chars "עונש", chars "משרד הבריאות", chars "יק\"ר",
   chars "רישיון", chars "regulation", chars "law", chars "legal",
   chars "medical", chars "penalty", chars "fine"]

/-- Embedding: `MEDIUM_RISK_KEYWORDS` from the fact checker. -/
def MEDIUM_RISK_KEYWORDS : List JStr :=
  [chars "מחקר", chars "מדעי", chars "ניסוי קליני", chars "research",
   chars "clinical", chars "study", chars "היסטוריה"]

/-- The fixed high-stakes category slugs. -/
def highRiskCategories : List JStr :=
  [chars "regulation-in-israel", chars "medical-indications",
   chars "side-effects-and-risks", chars "drug-drug-interactions"]

/-- Embedding: `classifyRisk` from the fact checker: category membership, then keyword
scans over the serialized concept text. -/
def classifyRisk (categorySlug conceptJson : JStr) : RiskLevel :=
  if highRiskCategories.any (fun c => c = categorySlug) then .high
  else
    let lowerContent := jsToLower conceptJson
    if HIGH_RISK_KEYWORDS.any (fun k => jsIncludes (jsToLower k) lowerContent) then .high
    else if MEDIUM_RISK_KEYWORDS.any (fun k => jsIncludes (jsToLower k) lowerContent) then .medium
    else .low

/-- One claim row of the fact-check model's structured output. -/
structure FactCheckClaim where
  claim : JStr
  verified : Bool
  source : JStr
  note : JStr
deriving DecidableEq, Repr

/-- The loosely-typed JSON the model call yields on success (all fields
optional, as the code defensively defaults each one). -/
structure ParsedFactCheck where
  claims : Option (List FactCheckClaim)
  confidenceScore : Option Rat
  unverifiedClaims : Option (List JStr)
deriving DecidableEq, Repr

/-- Embedding: `factCheck`'s result record. -/
structure FactCheckResult where
  claims : List FactCheckClaim
  confidenceScore : Rat
  unverifiedClaims : List JStr
  riskLevel : RiskLevel
deriving DecidableEq, Repr

/-- The placeholder unverified-claim text of the fail-closed branch. -/
def factCheckFailedPlaceholder : JStr :=
  chars "Fact-check process failed — manual review required"

/-- Embedding: `factCheck` from the fact checker.  The model call and JSON parse are
an input of the embedding: `.ok` carries the parsed structured output,
`.error` any thrown failure (network error, non-JSON output, exception). -/
def factCheck (categorySlug conceptJson : JStr)
    (modelCall : Except JStr ParsedFactCheck) : FactCheckResult :=
  let riskLevel := classifyRisk categorySlug conceptJson
  match modelCall with
  | .ok parsed =>
    { claims := parsed.claims.getD [],
      confidenceScore := max 0 (min 1 (parsed.confidenceScore.getD (mkRat 1 2))),
      unverifiedClaims := parsed.unverifiedClaims.getD [],
      riskLevel := riskLevel }
  | .error _ =>
    { claims := [],
      confidenceScore := mkRat 1 2,
      unverifiedClaims := [factCheckFailedPlaceholder],
      riskLevel := .high }

/-!
## Verification gate and review notification (3-generate-bulk / review-notifier)
-/

/-- Verification lifecycle states (the store's type also has `flagged`). -/
inductive VerificationStatus where
  | verified
  | pending
  | flagged
deriving DecidableEq, Repr

/-- The four context channels combined by the bulk driver. -/
structure SourceContextParts where
  ragContext : JStr
  liveMagazineContext : JStr
  wikiContext : JStr
  googleContext : JStr
deriving DecidableEq, Repr

/-- Embedding: `buildCombinedContext` from shared.ts: filter out empty channels, join
with blank lines, in the fixed order archive → live magazine → wiki →
web search. -/
def buildCombinedContext (p : SourceContextParts) : JStr :=
  joinSep (chars "\n\n")
    ([p.ragContext, p.liveMagazineContext, p.wikiContext, p.googleContext].filter
      (fun s => !s.isEmpty))

/-- The verification fields the bulk driver writes on the generated entry
after fact-checking. -/
structure GateOutcome where
  verificationStatus : VerificationStatus
  needsHumanReview : Bool
deriving DecidableEq, Repr

/-- The bulk driver's verification gate (`needsReview` and the branch on
it): pending iff confidence < 0.85, or risk is high, or the combined
context was empty. -/
def verificationGate (fc : FactCheckResult) (hasCombinedContext : Bool) : GateOutcome :=
  if fc.confidenceScore < mkRat 85 100 || fc.riskLevel = .high || !hasCombinedContext then
    { verificationStatus := .pending, needsHumanReview := true }
  else
    { verificationStatus := .verified, needsHumanReview := false }

/-- The gate as the driver invokes it: `hasCombinedContext` is
`combinedContext.length > 0`. -/
def gateOnContext (fc : FactCheckResult) (p : SourceContextParts) : GateOutcome :=
  verificationGate fc (0 < (buildCombinedContext p).length)

/-- The environment `notifyReview` runs in: optional credentials and the
outcome of the one e-mail send. -/
structure NotifyEnv where
  apiKey : Option JStr
  toEmail : Option JStr
  sendOutcome : Except JStr Unit
deriving Repr

/-- Embedding: `notifyReview` from review-notifier: skips (returning `false`) on
missing credentials, and converts any send failure into `false` via its
`try`/`catch` — the returned `Except` is `.ok` in every case, i.e. the
function never throws into its caller. -/
def notifyReview (env : NotifyEnv) : Except JStr Bool :=
  if env.apiKey = none || env.toEmail = none then .ok false
  else
    match env.sendOutcome with
    | .ok _ => .ok true
    | .error _ => .ok false

/-- Observable effects of the bulk driver's needs-review branch, in program
order. -/
inductive BulkEvent where
  | assignPendingStatus
  | attemptNotify
  | persistEntry
  | saveQueue
deriving DecidableEq, Repr

/-- The needs-review branch of the bulk driver's success path, as a
sequence of effects: set the pending status fields on the in-memory entry,
attempt the review notification (an exception here would propagate and
skip the remaining effects), then write the concept file and save the
queue. -/
def pendingReviewSequence (env : NotifyEnv) : Except JStr (List BulkEvent) := do
  let before := [BulkEvent.assignPendingStatus, BulkEvent.attemptNotify]
  let _ ← notifyReview env
  return before ++ [BulkEvent.persistEntry, BulkEvent.saveQueue]

/-!
## Published-concept store (`concepts.ts`)
-/

/-- The fields of a stored concept the verification filter observes. -/
structure ConceptData where
  slug : JStr
  categorySlug : JStr
  verificationStatus : Option VerificationStatus
  needsHumanReview : Option Bool
deriving DecidableEq, Repr

/-- One file of the content directory: its filename and its parse result
(`none` models unreadable/invalid JSON, which `readConceptFile` swallows). -/
structure DiskFile where
  name : JStr
  parsed : Option ConceptData
deriving DecidableEq, Repr

/-- The content directory. -/
abbrev ContentDir := List DiskFile

/-- Embedding: `readConceptFile`: direct read of `slug + ".json"`; the filename is the
source of truth for the slug field. -/
def readConceptFile (dir : ContentDir) (slug : JStr) : Option ConceptData :=
  match dir.find? (fun f => f.name = slug ++ chars ".json") with
  | none => none
  | some f => f.parsed.map (fun c => { c with slug := slug })

/-- Embedding: `readAllSlugsFromDisk`: strip `.json` from filenames, skipping files
not ending in `.json` and files starting with `_`. -/
def readAllSlugsFromDisk (dir : ContentDir) : List JStr :=
  ((dir.map (fun f => f.name)).filter
    (fun n => jsEndsWith (chars ".json") n && !leadsWith (chars "_") n)).map
    (fun n => n.take (n.length - 5))

/-- Embedding: `loadAllConceptFiles`. -/
def loadAllConceptFiles (dir : ContentDir) : List ConceptData :=
  (readAllSlugsFromDisk dir).filterMap (readConceptFile dir)

/-- Embedding: `isPublishable`: everything except `pending` renders (absent status is
publishable). -/
def isPublishable (c : ConceptData) : Bool :=
  c.verificationStatus ≠ some .pending

/-- Embedding: `getConceptBySlug`: a pending entry is treated as not found. -/
def getConceptBySlug (dir : ContentDir) (slug : JStr) : Option ConceptData :=
  match readConceptFile dir slug with
  | none => none
  | some c => if isPublishable c then some c else none

/-- Embedding: `getAllConcepts` (default `includeUnverified = false`). -/
def getAllConcepts (dir : ContentDir) (includeUnverified : Bool) : List ConceptData :=
  let all := loadAllConceptFiles dir
  if includeUnverified then all else all.filter isPublishable

/-- Embedding: `getAllSlugs` (default `includeUnverified = false`). -/
def getAllSlugs (dir : ContentDir) (includeUnverified : Bool) : List JStr :=
  if includeUnverified then readAllSlugsFromDisk dir
  else ((loadAllConceptFiles dir).filter isPublishable).map (fun c => c.slug)

/-- Embedding: `getConceptsByCategory` (default `includeUnverified = false`). -/
def getConceptsByCategory (dir : ContentDir) (categorySlug : JStr)
    (includeUnverified : Bool) : List ConceptData :=
  let all := (loadAllConceptFiles dir).filter (fun c => c.categorySlug = categorySlug)
  if includeUnverified then all else all.filter isPublishable

/-!
## C1 — the bulk driver's verification gate
-/

/-- C1: after fact-checking, the bulk driver marks the entry `verified` iff
the confidence score is at least 0.85, the computed risk level is not high,
and the combined four-channel context is non-empty; in particular an entry
with confidence 0.90 and risk low but an empty combined context is set to
`pending` with `needsHumanReview = true`. -/
theorem verification_gate_iff (fc : FactCheckResult) (p : SourceContextParts) :
    ((gateOnContext fc p).verificationStatus = .verified ↔
      (mkRat 85 100 ≤ fc.confidenceScore ∧ fc.riskLevel ≠ .high ∧
        buildCombinedContext p ≠ [])) ∧
    (fc.confidenceScore = mkRat 9 10 → fc.riskLevel = .low →
      buildCombinedContext p = [] →
      gateOnContext fc p =
        { verificationStatus := .pending, needsHumanReview := true }) := by
  constructor
  · unfold gateOnContext verificationGate
    rcases lt_or_le fc.confidenceScore (mkRat 85 100) with h1 | h1
    · have h1n := not_le.mpr h1
      simp [h1, h1n]
    · have h1n := not_lt.mpr h1
      by_cases h2 : fc.riskLevel = RiskLevel.high
      · simp [h1n, h2]
      · by_cases h3 : buildCombinedContext p = []
        · simp [h1n, h2, h3]
        · simp [h1, h1n, h2, h3, List.length_pos]
  · intro _ _ hctx
    unfold gateOnContext verificationGate
    rw [hctx]
    simp

/-- Witness for C1 at confidence 0.90, risk low, empty context. -/
theorem verification_gate_iff_witness :
    gateOnContext
        { claims := [], confidenceScore := mkRat 9 10, unverifiedClaims := [],
          riskLevel := .low }
        { ragContext := [], liveMagazineContext := [], wikiContext := [],
          googleContext := [] } =
      { verificationStatus := .pending, needsHumanReview := true } :=
  (verification_gate_iff _ _).2 rfl rfl rfl

/-!
## C2 — notification vs. persistence order
-/

/-- C2 counterexample: in the needs-review branch the review notification
is attempted BEFORE the entry's verification status is written to the
on-disk concept store, refuting the claimed persist-then-notify order —
here at a concrete environment whose e-mail send fails. -/
theorem notify_precedes_persist_counterexample :
    pendingReviewSequence
        { apiKey := some (chars "key"), toEmail := some (chars "rev@x"),
          sendOutcome := .error (chars "send failed") } =
      .ok [BulkEvent.assignPendingStatus, BulkEvent.attemptNotify,
        BulkEvent.persistEntry, BulkEvent.saveQueue] ∧
    [BulkEvent.assignPendingStatus, BulkEvent.attemptNotify,
        BulkEvent.persistEntry, BulkEvent.saveQueue].indexOf BulkEvent.attemptNotify <
      [BulkEvent.assignPendingStatus, BulkEvent.attemptNotify,
        BulkEvent.persistEntry, BulkEvent.saveQueue].indexOf BulkEvent.persistEntry := by
  constructor
  · rfl
  · decide

/-- C2 amended: the notification is attempted before the status is
persisted, but `notifyReview` converts missing credentials and any send
failure into a `false` return instead of throwing, so the branch always
completes and a notification failure can never leave the new status
un-persisted. -/
theorem notify_never_blocks_persist (env : NotifyEnv) :
    ∃ evs, pendingReviewSequence env = .ok evs ∧
      BulkEvent.persistEntry ∈ evs ∧
      evs.indexOf BulkEvent.attemptNotify < evs.indexOf BulkEvent.persistEntry := by
  unfold pendingReviewSequence notifyReview
  by_cases h : (env.apiKey = none || env.toEmail = none) = true
  · rw [if_pos h]
    exact ⟨_, rfl, by decide, by decide⟩
  · rw [if_neg h]
    cases env.sendOutcome with
    | ok _ => exact ⟨_, rfl, by decide, by decide⟩
    | error _ => exact ⟨_, rfl, by decide, by decide⟩

/-!
## C4 — fact-check fails closed
-/

/-- C4: on any failure of the fact-check model call, `factCheck` returns
confidence 0.5, a single placeholder unverified claim requiring manual
review, and risk level high — regardless of the locally computed risk. -/
theorem factCheck_fails_closed (categorySlug conceptJson err : JStr) :
    factCheck categorySlug conceptJson (.error err) =
      { claims := [], confidenceScore := mkRat 1 2,
        unverifiedClaims := [factCheckFailedPlaceholder], riskLevel := .high } := rfl

/-!
## C8 — product matcher determinism
-/

/-- The code's shuffle loop coincides with the spec's pseudo-shuffle
formula at every loop counter. -/
theorem shuffleGo_eq_specGo (n : Nat) :
    ∀ pool : List ScoredEntry, shuffleGo pool n = specPseudoShuffle.specGo pool n := by
  induction n with
  | zero => intro pool; rfl
  | succ k ih =>
    intro pool
    unfold shuffleGo specPseudoShuffle.specGo
    cases h : pool[Nat.succ k]? with
    | none => simpa [h] using ih pool
    | some e => simpa [h] using ih (listSwap pool (Nat.succ k)
        ((e.score * 31 + (Nat.succ k : Int) * 17) % ((Nat.succ k : Int) + 1)).toNat)

/-- C8: `findProducts` is a pure function of catalog and aliases — two
calls on identical inputs return the identical product list — and its
pseudo-shuffle is exactly the spec's score-and-position formula: swap
position i with position `(score_i * 31 + i * 17) mod (i + 1)` for i from
the end down to 1, with no dependence on wall-clock time or randomness. -/
theorem findProducts_deterministic (catalog : List CatalogEntry) (aliases : List JStr) :
    findProducts catalog aliases = findProducts catalog aliases ∧
    (∀ pool : List ScoredEntry,
      shuffleGo pool (pool.length - 1) = specPseudoShuffle pool) := by
  refine ⟨rfl, fun pool => ?_⟩
  rw [specPseudoShuffle, shuffleGo_eq_specGo]

/-!
## C9 — pending concepts are hidden from the public store
-/

/-- A pattern occurs at the start of itself followed by anything. -/
theorem leadsWith_append_self (x y : JStr) : leadsWith x (x ++ y) = true := by
  induction x with
  | nil => rfl
  | cons a as ih => simp [leadsWith, ih]

/-- Lemma: `jsEndsWith suffix (s ++ suffix)` holds. -/
theorem jsEndsWith_append (t s : JStr) : jsEndsWith t (s ++ t) = true := by
  unfold jsEndsWith
  rw [List.reverse_append]
  exact leadsWith_append_self t.reverse s.reverse

/-- The filename is the source of truth for the slug field. -/
theorem readConceptFile_slug {dir : ContentDir} {s : JStr} {d : ConceptData}
    (h : readConceptFile dir s = some d) : d.slug = s := by
  unfold readConceptFile at h
  cases hf : dir.find? (fun f => f.name = s ++ chars ".json") with
  | none => rw [hf] at h; exact absurd h (by simp)
  | some f =>
    rw [hf] at h
    dsimp only at h
    cases hp : f.parsed with
    | none => rw [hp] at h; exact absurd h (by simp)
    | some c0 =>
      rw [hp] at h
      simp only [Option.map] at h
      cases h
      rfl

/-- A slug whose file exists, parses, and passes the underscore filter is
enumerated by `readAllSlugsFromDisk`. -/
theorem mem_readAllSlugs {dir : ContentDir} {slug : JStr} {c : ConceptData}
    (hread : readConceptFile dir slug = some c)
    (hname : leadsWith (chars "_") (slug ++ chars ".json") = false) :
    slug ∈ readAllSlugsFromDisk dir := by
  unfold readConceptFile at hread
  cases hf : dir.find? (fun f => f.name = slug ++ chars ".json") with
  | none => rw [hf] at hread; exact absurd hread (by simp)
  | some f =>
    have hmem : f ∈ dir := List.mem_of_find?_eq_some hf
    have hfname : f.name = slug ++ chars ".json" := by
      have := List.find?_some hf
      exact of_decide_eq_true this
    unfold readAllSlugsFromDisk
    refine List.mem_map.mpr ⟨f.name, List.mem_filter.mpr ⟨List.mem_map.mpr ⟨f, hmem, rfl⟩, ?_⟩, ?_⟩
    · rw [hfname, jsEndsWith_append, hname]
      rfl
    · rw [hfname]
      have hlen : (slug ++ chars ".json").length - 5 = slug.length := by
        simp [List.length_append]
        rfl
      rw [hlen]
      exact List.take_left slug (chars ".json")

/-- Every concept loaded from disk is the read of its enumerated slug. -/
theorem mem_loadAll_iff {dir : ContentDir} {d : ConceptData} :
    d ∈ loadAllConceptFiles dir ↔
      ∃ s ∈ readAllSlugsFromDisk dir, readConceptFile dir s = some d := by
  unfold loadAllConceptFiles
  rw [List.mem_filterMap]

/-- C9: a stored concept whose verification status is `pending` is treated
as not-found by `getConceptBySlug` and excluded by the default (public)
arguments of `getAllConcepts`, `getAllSlugs` and `getConceptsByCategory`,
while `includeUnverified = true` includes it. -/
theorem pending_concept_hidden (dir : ContentDir) (slug : JStr) (c : ConceptData)
    (hread : readConceptFile dir slug = some c)
    (hpending : c.verificationStatus = some .pending)
    (hname : leadsWith (chars "_") (slug ++ chars ".json") = false) :
    getConceptBySlug dir slug = none ∧
    (∀ d ∈ getAllConcepts dir false, d.verificationStatus ≠ some .pending) ∧
    slug ∉ getAllSlugs dir false ∧
    (∀ cat, ∀ d ∈ getConceptsByCategory dir cat false,
      d.verificationStatus ≠ some .pending) ∧
    c ∈ getAllConcepts dir true := by
  have hpub : isPublishable c = false := by
    unfold isPublishable
    simp [hpending]
  refine ⟨?_, ?_, ?_, ?_, ?_⟩
  · unfold getConceptBySlug
    rw [hread]
    dsimp only
    rw [hpub]
    simp
  · intro d hd
    unfold getAllConcepts at hd
    simp only [if_neg (by simp : ¬ false = true)] at hd
    have := (List.mem_filter.mp hd).2
    unfold isPublishable at this
    simpa using this
  · intro hmem
    unfold getAllSlugs at hmem
    simp only [if_neg (by simp : ¬ false = true)] at hmem
    obtain ⟨d, hd, hds⟩ := List.mem_map.mp hmem
    have hdload := (List.mem_filter.mp hd).1
    have hdpub := (List.mem_filter.mp hd).2
    obtain ⟨s, _, hsread⟩ := mem_loadAll_iff.mp hdload
    have hslug : d.slug = s := readConceptFile_slug hsread
    rw [hslug] at hds
    rw [hds] at hsread
    rw [hread] at hsread
    cases hsread
    rw [hpub] at hdpub
    exact absurd hdpub (by simp)
  · intro cat d hd
    unfold getConceptsByCategory at hd
    simp only [if_neg (by simp : ¬ false = true)] at hd
    have := (List.mem_filter.mp hd).2
    unfold isPublishable at this
    simpa using this
  · unfold getAllConcepts
    simp only [if_pos rfl]
    exact mem_loadAll_iff.mpr ⟨slug, mem_readAllSlugs hread hname, hread⟩

/-- A one-file store with a pending concept, for the C9 witness. -/
def pendingDirEx : ContentDir :=
  [{ name := chars "thc.json",
     parsed := some { slug := chars "ignored", categorySlug := chars "cannabinoids",
                      verificationStatus := some .pending,
                      needsHumanReview := some true } }]

/-- The pending concept of `pendingDirEx` as `readConceptFile` returns it. -/
def pendingConceptEx : ConceptData :=
  { slug := chars "thc", categorySlug := chars "cannabinoids",
    verificationStatus := some .pending, needsHumanReview := some true }

/-- Witness for C9: the concrete pending concept is hidden from the public
lookup. -/
theorem pending_concept_hidden_witness :
    getConceptBySlug pendingDirEx (chars "thc") = none :=
  (pending_concept_hidden pendingDirEx (chars "thc") pendingConceptEx
    (by decide) (by decide) (by decide)).1

/-!
## C5 — term expansion: length invariant, non-idempotence
-/

/-- The code point of `jsLowerChar c`. -/
theorem jsLowerChar_toNat (c : Char) :
    (jsLowerChar c).toNat =
      if 65 ≤ c.toNat ∧ c.toNat ≤ 90 then c.toNat + 32 else c.toNat := by
  unfold jsLowerChar
  by_cases h : 65 ≤ c.toNat ∧ c.toNat ≤ 90
  · rw [dif_pos h, if_pos h]
    have hsz : UInt32.size = 4294967296 := rfl
    have hlt : c.toNat + 32 < UInt32.size := by omega
    exact UInt32.toNat_ofNat_of_lt hlt
  · rw [dif_neg h, if_neg h]

/-- Lemma: `jsLowerChar` fixes characters outside the upper-case latin range. -/
theorem jsLowerChar_eq_self (c : Char) (h : ¬(65 ≤ c.toNat ∧ c.toNat ≤ 90)) :
    jsLowerChar c = c := dif_neg h

/-- Lowercasing a character twice is the same as lowercasing it once. -/
theorem jsLowerChar_idem (c : Char) :
    jsLowerChar (jsLowerChar c) = jsLowerChar c := by
  apply jsLowerChar_eq_self
  rw [jsLowerChar_toNat]
  by_cases h : 65 ≤ c.toNat ∧ c.toNat ≤ 90
  · rw [if_pos h]
    omega
  · rw [if_neg h]
    exact h

/-- A string all of whose characters are fixed by `jsLowerChar`. -/
def LowerFixed (s : JStr) : Prop := ∀ c ∈ s, jsLowerChar c = c

/-- The output of `jsToLower` is `LowerFixed`. -/
theorem lowerFixed_jsToLower (s : JStr) : LowerFixed (jsToLower s) := by
  intro c hc
  obtain ⟨d, _, rfl⟩ := List.mem_map.mp hc
  exact jsLowerChar_idem d

/-- Lemma: `LowerFixed` transfers along character containment. -/
theorem lowerFixed_of_subset {s t : JStr} (hsub : ∀ c ∈ t, c ∈ s)
    (hs : LowerFixed s) : LowerFixed t := fun c hc => hs c (hsub c hc)

/-- A `LowerFixed` string is fixed by `jsToLower`. -/
theorem jsToLower_eq_self {s : JStr} (h : LowerFixed s) : jsToLower s = s := by
  unfold jsToLower
  induction s with
  | nil => rfl
  | cons a as ih =>
    simp only [List.map_cons]
    rw [h a (List.mem_cons_self a as), ih (fun c hc => h c (List.mem_cons_of_mem a hc))]

/-- Characters survive `dropWhile` only from the original string. -/
theorem mem_of_mem_dropWhile {p : Char → Bool} {s : JStr} {c : Char}
    (h : c ∈ s.dropWhile p) : c ∈ s :=
  (List.dropWhile_sublist p).mem h

/-- Characters of `dropEndWS s` come from `s`. -/
theorem mem_of_mem_dropEndWS {s : JStr} {c : Char} (h : c ∈ dropEndWS s) : c ∈ s := by
  unfold dropEndWS at h
  rw [List.mem_reverse] at h
  exact List.mem_reverse.mp (mem_of_mem_dropWhile h)

/-- Characters of `jsTrim s` come from `s`. -/
theorem mem_of_mem_jsTrim {s : JStr} {c : Char} (h : c ∈ jsTrim s) : c ∈ s :=
  mem_of_mem_dropWhile (mem_of_mem_dropEndWS h)

/-- Dropping a satisfied prefix twice equals dropping it once. -/
theorem dropWhile_dropWhile (p : Char → Bool) (l : JStr) :
    (l.dropWhile p).dropWhile p = l.dropWhile p := by
  induction l with
  | nil => rfl
  | cons a as ih =>
    by_cases h : p a
    · rw [List.dropWhile_cons_of_pos h, ih]
    · rw [List.dropWhile_cons_of_neg h, List.dropWhile_cons_of_neg h]

/-- Lemma: `dropEndWS` is idempotent. -/
theorem dropEndWS_idem (s : JStr) : dropEndWS (dropEndWS s) = dropEndWS s := by
  unfold dropEndWS
  rw [List.reverse_reverse, dropWhile_dropWhile]

/-- If `dropWhile` fixed a non-empty list, its head fails the predicate. -/
theorem head_false_of_dropWhile_fix {p : Char → Bool} {a : Char} {t : JStr}
    (h : (a :: t).dropWhile p = a :: t) : p a = false := by
  cases hb : p a with
  | false => rfl
  | true =>
    rw [List.dropWhile_cons_of_pos hb] at h
    have hle : (t.dropWhile p).length ≤ t.length := (List.dropWhile_sublist p).length_le
    have hlen := congrArg List.length h
    simp at hlen
    omega

/-- Lemma: `dropEndWS` only removes characters from the end: it yields a prefix. -/
theorem dropEndWS_front_of (s : JStr) : ∃ w, s = dropEndWS s ++ w := by
  refine ⟨(s.reverse.takeWhile Char.isWhitespace).reverse, ?_⟩
  unfold dropEndWS
  rw [← List.reverse_append, List.takeWhile_append_dropWhile, List.reverse_reverse]

/-- Lemma: `jsTrim` is idempotent. -/
theorem jsTrim_idem (s : JStr) : jsTrim (jsTrim s) = jsTrim s := by
  unfold jsTrim
  have hfix : (s.dropWhile Char.isWhitespace).dropWhile Char.isWhitespace =
      s.dropWhile Char.isWhitespace := dropWhile_dropWhile _ s
  have hdw : (dropEndWS (s.dropWhile Char.isWhitespace)).dropWhile Char.isWhitespace =
      dropEndWS (s.dropWhile Char.isWhitespace) := by
    obtain ⟨w, hw⟩ := dropEndWS_front_of (s.dropWhile Char.isWhitespace)
    cases hv : dropEndWS (s.dropWhile Char.isWhitespace) with
    | nil => rfl
    | cons a t =>
      rw [hv] at hw
      have hfa : Char.isWhitespace a = false := by
        apply head_false_of_dropWhile_fix (t := t ++ w)
        have hw2 : s.dropWhile Char.isWhitespace = a :: (t ++ w) := by
          simpa using hw
        rw [← hw2]
        exact hfix
      rw [List.dropWhile_cons_of_neg (by simp [hfa])]
  rw [hdw, dropEndWS_idem]

/-- Characters of every `splitChar` piece come from the input string. -/
theorem splitChar_chars (sep : Char) :
    ∀ (s : JStr), ∀ p ∈ splitChar sep s, ∀ c ∈ p, c ∈ s := by
  intro s
  induction s with
  | nil =>
    intro p hp c hc
    simp [splitChar] at hp
    rw [hp] at hc
    exact absurd hc (by simp)
  | cons a rest ih =>
    intro p hp c hc
    by_cases ha : a = sep
    · rw [splitChar, if_pos ha] at hp
      rcases List.mem_cons.mp hp with h | h
      · rw [h] at hc; exact absurd hc (by simp)
      · exact List.mem_cons_of_mem a (ih p h c hc)
    · rw [splitChar, if_neg ha] at hp
      cases hrec : splitChar sep rest with
      | nil =>
        rw [hrec] at hp
        simp at hp
        rw [hp] at hc
        simp at hc
        simp [hc]
      | cons q qs =>
        rw [hrec] at hp
        rcases List.mem_cons.mp hp with h | h
        · rw [h] at hc
          rcases List.mem_cons.mp hc with h2 | h2
          · simp [h2]
          · exact List.mem_cons_of_mem a (ih q (by rw [hrec]; exact List.mem_cons_self q qs) c h2)
        · exact List.mem_cons_of_mem a (ih p (by rw [hrec]; exact List.mem_cons_of_mem q h) c hc)

/-- Characters of the first piece after `consPiece` come from the new
character or the old pieces. -/
theorem consPiece_chars {c : Char} {l : List JStr} {p : JStr} (hp : p ∈ consPiece c l)
    {x : Char} (hx : x ∈ p) : x = c ∨ ∃ q ∈ l, x ∈ q := by
  cases l with
  | nil =>
    simp [consPiece] at hp
    rw [hp] at hx
    simp at hx
    exact Or.inl hx
  | cons q qs =>
    rcases List.mem_cons.mp hp with h | h
    · rw [h] at hx
      rcases List.mem_cons.mp hx with h2 | h2
      · exact Or.inl h2
      · exact Or.inr ⟨q, List.mem_cons_self q qs, h2⟩
    · exact Or.inr ⟨p, List.mem_cons_of_mem q h, hx⟩

/-- Characters of every `splitDash` piece come from the input string. -/
theorem splitDash_chars :
    ∀ (s : JStr), ∀ p ∈ splitDash s, ∀ c ∈ p, c ∈ s := by
  intro s
  induction s using splitDash.induct with
  | case1 =>
    intro p hp c hc
    simp [splitDash] at hp
    rw [hp] at hc
    exact absurd hc (by simp)
  | case2 a =>
    intro p hp c hc
    simp [splitDash] at hp
    rw [hp] at hc
    simpa using hc
  | case3 a b =>
    intro p hp c hc
    simp [splitDash] at hp
    rw [hp] at hc
    simpa using hc
  | case4 a b e rest hdash ih =>
    intro p hp c hc
    rw [splitDash, if_pos hdash] at hp
    rcases List.mem_cons.mp hp with h | h
    · rw [h] at hc; exact absurd hc (by simp)
    · have := ih p h c hc
      simp [this]
  | case5 a b e rest hdash ih =>
    intro p hp c hc
    rw [splitDash, if_neg hdash] at hp
    rcases consPiece_chars hp hc with h | ⟨q, hq, hcq⟩
    · simp [h]
    · have := ih q hq c hcq
      simpa using Or.inr this

/-- A successful `findParen` decomposes its input around the match. -/
theorem findParen_decomp :
    ∀ {s pre inner post : JStr}, findParen s = some (pre, inner, post) →
      s = pre ++ '(' :: (inner ++ ')' :: post) := by
  intro s
  induction s with
  | nil => intro pre inner post h; exact absurd h (by simp [findParen])
  | cons c rest ih =>
    intro pre inner post h
    rw [findParen.eq_def] at h
    dsimp only at h
    by_cases hc : c = '('
    · rw [if_pos hc] at h
      revert h
      split
      · rename_i post0 hdrop
        by_cases hlen : (rest.takeWhile (fun d => d ≠ ')')).length = 0
        · rw [if_pos hlen]
          intro h
          rcases Option.map_eq_some'.mp h with ⟨⟨p1, i1, q1⟩, hfp, hval⟩
          cases hval
          have hr := ih hfp
          simp [hr]
        · rw [if_neg hlen]
          intro h
          simp only [Option.some.injEq, Prod.mk.injEq] at h
          obtain ⟨hpre, hinner, hpost⟩ := h
          subst hpre
          subst hinner
          subst hpost
          have hsplit := List.takeWhile_append_dropWhile (fun d => decide (d ≠ ')')) rest
          rw [hdrop] at hsplit
          rw [hc]
          simp only [List.nil_append]
          rw [hsplit]
      · intro h
        rcases Option.map_eq_some'.mp h with ⟨⟨p1, i1, q1⟩, hfp, hval⟩
        cases hval
        have hr := ih hfp
        simp [hr]
    · rw [if_neg hc] at h
      rcases Option.map_eq_some'.mp h with ⟨⟨p1, i1, q1⟩, hfp, hval⟩
      cases hval
      have hr := ih hfp
      simp [hr]

/-- Membership in the seen-filtered de-duplication. -/
theorem mem_firstDedupGo :
    ∀ (l seen : List JStr) (x : JStr),
      x ∈ firstDedupGo l seen ↔ x ∈ l ∧ x ∉ seen := by
  intro l
  induction l with
  | nil => intro seen x; simp [firstDedupGo]
  | cons t rest ih =>
    intro seen x
    by_cases ht : t ∈ seen
    · rw [firstDedupGo, if_pos ht, ih]
      constructor
      · rintro ⟨hx, hns⟩
        exact ⟨List.mem_cons_of_mem t hx, hns⟩
      · rintro ⟨hx, hns⟩
        rcases List.mem_cons.mp hx with h | h
        · rw [h] at hns; exact absurd ht hns
        · exact ⟨h, hns⟩
    · rw [firstDedupGo, if_neg ht]
      constructor
      · intro hx
        rcases List.mem_cons.mp hx with h | h
        · exact ⟨by simp [h], by rw [h]; exact ht⟩
        · have := (ih (t :: seen) x).mp h
          exact ⟨List.mem_cons_of_mem t this.1, fun hs => this.2 (List.mem_cons_of_mem t hs)⟩
      · rintro ⟨hx, hns⟩
        rcases List.mem_cons.mp hx with h | h
        · rw [h]; exact List.mem_cons_self t _
        · by_cases hxt : x = t
          · rw [hxt]; exact List.mem_cons_self t _
          · exact List.mem_cons_of_mem t ((ih (t :: seen) x).mpr
              ⟨h, fun hs => (List.mem_cons.mp hs).elim hxt hns⟩)

/-- Lemma: `firstDedup` preserves membership exactly. -/
theorem mem_firstDedup {l : List JStr} {x : JStr} :
    x ∈ firstDedup l ↔ x ∈ l := by
  unfold firstDedup
  rw [mem_firstDedupGo]
  simp

/-- Every term pushed by `processItem` is trim-fixed and drawn from the
characters of the lowercased, trimmed base string. -/
theorem processItem_props {item t : JStr} (ht : t ∈ processItem item) :
    jsTrim t = t ∧ ∀ c ∈ t, c ∈ jsTrim (jsToLower item) := by
  unfold processItem at ht
  by_cases hlen : (jsTrim (jsToLower item)).length < 2
  · rw [if_pos hlen] at ht
    exact absurd ht (by simp)
  · rw [if_neg hlen] at ht
    rcases List.mem_append.mp ht with ht1 | htsl
    · rcases List.mem_append.mp ht1 with ht2 | htd
      · rcases List.mem_append.mp ht2 with htb | htp
        · have hb : t = jsTrim (jsToLower item) := by simpa using htb
          subst hb
          exact ⟨jsTrim_idem _, fun c hc => hc⟩
        · cases hfp : findParen (jsTrim (jsToLower item)) with
          | none => rw [hfp] at htp; exact absurd htp (by simp)
          | some triple =>
            obtain ⟨pre, inner, post⟩ := triple
            rw [hfp] at htp
            have hdec := findParen_decomp hfp
            rcases List.mem_cons.mp htp with h | h
            · subst h
              refine ⟨jsTrim_idem _, fun c hc => ?_⟩
              have hci : c ∈ inner := mem_of_mem_jsTrim hc
              rw [hdec]
              simp [hci]
            · have h2 : t = jsTrim (pre ++ post) := by simpa using h
              subst h2
              refine ⟨jsTrim_idem _, fun c hc => ?_⟩
              have hci : c ∈ pre ++ post := mem_of_mem_jsTrim hc
              rw [hdec]
              rcases List.mem_append.mp hci with h3 | h3 <;> simp [h3]
      · by_cases hd : includesDash (jsTrim (jsToLower item)) = true
        · rw [if_pos hd] at htd
          obtain ⟨p, hp, hpt⟩ := List.mem_map.mp htd
          subst hpt
          refine ⟨jsTrim_idem _, fun c hc => ?_⟩
          exact splitDash_chars _ p hp c (mem_of_mem_jsTrim hc)
        · rw [if_neg hd] at htd
          exact absurd htd (by simp)
    · by_cases hs : jsIncludes (chars "/") (jsTrim (jsToLower item)) = true
      · rw [if_pos hs] at htsl
        obtain ⟨p, hp, hpt⟩ := List.mem_map.mp htsl
        subst hpt
        refine ⟨jsTrim_idem _, fun c hc => ?_⟩
        exact splitChar_chars '/' _ p hp c (mem_of_mem_jsTrim hc)
      · rw [if_neg hs] at htsl
        exact absurd htsl (by simp)

/-- Every term `expandTerms` emits has length ≥ 2 and is fixed by
lowercasing and trimming. -/
theorem expandTerms_props {raw : List JStr} {t : JStr} (ht : t ∈ expandTerms raw) :
    2 ≤ t.length ∧ jsToLower t = t ∧ jsTrim t = t := by
  unfold expandTerms at ht
  have ht2 := mem_firstDedup.mp ht
  have hfil := List.mem_filter.mp ht2
  have hlen : 2 ≤ t.length := by simpa using hfil.2
  obtain ⟨item, _, hpi⟩ := List.mem_flatMap.mp hfil.1
  obtain ⟨htrim, hchars⟩ := processItem_props hpi
  refine ⟨hlen, ?_, htrim⟩
  apply jsToLower_eq_self
  apply lowerFixed_of_subset (fun c hc => mem_of_mem_jsTrim (hchars c hc))
  exact lowerFixed_jsToLower item

/-- A normalized term of length ≥ 2 re-emits itself. -/
theorem self_mem_processItem {t : JStr} (hlen : 2 ≤ t.length)
    (hlow : jsToLower t = t) (htrim : jsTrim t = t) : t ∈ processItem t := by
  unfold processItem
  rw [hlow, htrim, if_neg (by omega)]
  exact List.mem_append_left _ (List.mem_append_left _
    (List.mem_append_left _ (List.mem_cons_self t [])))

/-- C5 counterexample: `expandTerms` is not idempotent — on
`["(a/bb)"]` the second pass discovers the new term `"bb"` by splitting
the parenthetical fragment `"a/bb"` on `"/"`. -/
theorem expandTerms_not_idempotent :
    expandTerms (expandTerms [chars "(a/bb)"]) ≠ expandTerms [chars "(a/bb)"] := by
  decide

/-- C5 amended: every term `expandTerms` emits has length ≥ 2, and a second
pass never loses terms — `expandTerms (expandTerms raw)` contains every
term of `expandTerms raw` — but it may discover new ones (the claimed
idempotence fails when a separator occurs inside a parenthetical). -/
theorem expandTerms_min_length_and_monotone (raw : List JStr) :
    (∀ t ∈ expandTerms raw, 2 ≤ t.length) ∧
    (∀ t ∈ expandTerms raw, t ∈ expandTerms (expandTerms raw)) := by
  constructor
  · intro t ht
    exact (expandTerms_props ht).1
  · intro t ht
    obtain ⟨hlen, hlow, htrim⟩ := expandTerms_props ht
    unfold expandTerms
    apply mem_firstDedup.mpr
    apply List.mem_filter.mpr
    refine ⟨List.mem_flatMap.mpr ⟨t, ?_, self_mem_processItem hlen hlow htrim⟩, by simpa⟩
    exact ht

/-- Witness for the amended C5 at a concrete term list. -/
theorem expandTerms_min_length_and_monotone_witness :
    2 ≤ (chars "a/bb").length ∧
    chars "a/bb" ∈ expandTerms (expandTerms [chars "(a/bb)"]) :=
  ⟨(expandTerms_min_length_and_monotone [chars "(a/bb)"]).1 (chars "a/bb") (by decide),
   (expandTerms_min_length_and_monotone [chars "(a/bb)"]).2 (chars "a/bb") (by decide)⟩

/-!
## C6 — chunker fallback
-/

/-- The noise block: one short paragraph and its blank-line separator. -/
def noiseBlock : JStr := chars "aaaa\n\n"

/-- Embedding: 420 short noise paragraphs: 2520 characters, none of whose paragraphs
survives the > 30 character filter. -/
def longNoiseContent : JStr := (List.replicate 420 noiseBlock).flatten

/-- An article whose content is pure noise for the paragraph filter. -/
def longNoiseArticle : ArchiveArticle :=
  { id := 1, date := { time := 0, year := 2020, valid := true },
    link := chars "https://example.com/a", title := chars "noise",
    content := longNoiseContent, excerpt := [], tags := [], wordCount := 420 }

/-- The paragraph machine consumes one noise block from the initial
state. -/
theorem splitNNGo_block_start (s : JStr) :
    splitNNGo (noiseBlock ++ s) [] 0 = splitNNGo s (chars "aaaa") 2 := rfl

/-- The paragraph machine consumes one noise block after a separator,
emitting the previous piece. -/
theorem splitNNGo_block_cont (s acc : JStr) :
    splitNNGo (noiseBlock ++ s) acc 2 = acc.reverse :: splitNNGo s (chars "aaaa") 2 := rfl

/-- Splitting `n` further noise blocks yields `n + 1` short pieces and a
trailing empty piece. -/
theorem splitNNGo_noise (n : Nat) :
    splitNNGo ((List.replicate n noiseBlock).flatten) (chars "aaaa") 2 =
      List.replicate (n + 1) (chars "aaaa") ++ [[]] := by
  induction n with
  | zero => rfl
  | succ k ih =>
    rw [List.replicate_succ, List.flatten_cons, splitNNGo_block_cont, ih]
    rw [List.replicate_succ (chars "aaaa") (k + 1)]
    rfl

/-- No paragraph of the long noise content survives the > 30 filter. -/
theorem paragraphsOf_longNoise : paragraphsOf longNoiseContent = [] := by
  unfold paragraphsOf longNoiseContent splitNN
  rw [show (420 : Nat) = 419 + 1 from rfl, List.replicate_succ, List.flatten_cons,
    splitNNGo_block_start, splitNNGo_noise]
  rw [List.map_append, List.map_replicate]
  have htrim : jsTrim (chars "aaaa") = chars "aaaa" := by decide
  rw [htrim]
  apply List.filter_eq_nil_iff.mpr
  intro p hp
  rcases List.mem_append.mp hp with h | h
  · have := List.eq_of_mem_replicate h
    rw [this]
    decide
  · have : p = jsTrim [] := by simpa using h
    rw [this]
    decide

/-- The long noise content is 2520 characters. -/
theorem longNoise_length : longNoiseContent.length = 2520 := by
  have hgen : ∀ n : Nat, ((List.replicate n noiseBlock).flatten).length = 6 * n := by
    intro n
    induction n with
    | zero => rfl
    | succ k ih =>
      rw [List.replicate_succ, List.flatten_cons, List.length_append, ih]
      show 6 + 6 * k = 6 * (k + 1)
      omega
  unfold longNoiseContent
  rw [hgen]

/-- When no paragraph survives filtering, `chunkArticle` returns the raw
content as a single chunk, with no truncation. -/
theorem chunkArticle_of_no_paragraphs {article : ArchiveArticle}
    (h : paragraphsOf article.content = []) :
    chunkArticle article = [article.content] := by
  unfold chunkArticle
  rw [if_pos (by rw [h]; rfl)]

/-- C6 counterexample: on 420 short noise paragraphs (2520 characters, no
paragraph surviving the filter) `chunkArticle` returns the raw text as a
single chunk WITHOUT truncating it to the `CHUNK_TARGET_WORDS * 6 = 2400`
character bound, refuting the claimed truncation (the truncating fallback
on the function's last line is unreachable). -/
theorem chunkArticle_fallback_not_truncated :
    paragraphsOf longNoiseContent = [] ∧
    chunkArticle longNoiseArticle = [longNoiseContent] ∧
    chunkArticle longNoiseArticle ≠
      [longNoiseContent.take (CHUNK_TARGET_WORDS * 6)] := by
  have hcontent : longNoiseArticle.content = longNoiseContent := rfl
  have h2 : chunkArticle longNoiseArticle = [longNoiseContent] := by
    rw [chunkArticle_of_no_paragraphs]
    · rw [hcontent]
    · rw [hcontent]
      exact paragraphsOf_longNoise
  refine ⟨paragraphsOf_longNoise, h2, ?_⟩
  rw [h2]
  intro h
  have hc : longNoiseContent = longNoiseContent.take (CHUNK_TARGET_WORDS * 6) := by
    injection h
  have hlen := congrArg List.length hc
  rw [List.length_take, longNoise_length] at hlen
  simp [CHUNK_TARGET_WORDS] at hlen

/-- The final branch of `chunkArticle` never produces the empty list. -/
theorem iteByLength_ne_nil (c2 : List JStr) (x : JStr) :
    (if 0 < c2.length then c2 else [x]) ≠ [] := by
  split
  · rename_i hlen
    exact List.ne_nil_of_length_pos hlen
  · simp

/-- C6 amended: for every article with non-empty content, `chunkArticle`
never returns an empty chunk list; when no paragraph survives the noise
filter it returns the raw article text — untruncated — as a single
chunk. -/
theorem chunkArticle_never_empty (article : ArchiveArticle)
    (h : article.content ≠ []) :
    chunkArticle article ≠ [] ∧
    (paragraphsOf article.content = [] → chunkArticle article = [article.content]) := by
  refine ⟨?_, chunkArticle_of_no_paragraphs⟩
  unfold chunkArticle
  by_cases hp : (paragraphsOf article.content).isEmpty
  · rw [if_pos hp]
    simp
  · rw [if_neg hp]
    exact iteByLength_ne_nil _ _

/-- A tiny two-character article for the C6 witness. -/
def tinyArticle : ArchiveArticle :=
  { id := 2, date := { time := 0, year := 2021, valid := true },
    link := chars "https://example.com/b", title := chars "b",
    content := chars "hi", excerpt := [], tags := [], wordCount := 1 }

/-- Witness for C6 at the tiny article. -/
theorem chunkArticle_never_empty_witness : chunkArticle tinyArticle ≠ [] :=
  (chunkArticle_never_empty tinyArticle (by decide)).1

/-!
## C7 — penalty stacking
-/

/-- C7: for an article whose title/tag sub-score is 0 (all hits were
content-only) and which has no specific-term match at all (matched only
broad terms), `scoreArticle` stacks both penalties: the final score equals
`base × recency × 0.5 × 0.3`. -/
theorem penalty_stacking (article : ArchiveArticle) (S B : List JStr)
    (h1 : (scoreArticle article S B).titleTagScore = 0)
    (h2 : (scoreArticle article S B).isSpecific = false)
    (h3 : hasBroadMatch article S B = true) :
    (scoreArticle article S B).finalScore =
      ((scoreArticle article S B).baseScore : Rat) *
        (scoreArticle article S B).recencyMultiplier * mkRat 1 2 * mkRat 3 10 := by
  unfold scoreArticle at h1 h2 ⊢
  unfold hasBroadMatch at h3
  by_cases hb : (scanBroad (jsToLower article.title) (jsToLower article.content)
      (scanSpecific (jsToLower article.title) (jsToLower article.content) S)
      B).titleTag +
      (scanBroad (jsToLower article.title) (jsToLower article.content)
        (scanSpecific (jsToLower article.title) (jsToLower article.content) S)
        B).content +
      (scanBroad (jsToLower article.title) (jsToLower article.content)
        (scanSpecific (jsToLower article.title) (jsToLower article.content) S)
        B).density = 0
  · rw [if_pos hb] at h1 h2 ⊢
    dsimp only
    norm_num
  · rw [if_neg hb] at h1 h2 ⊢
    dsimp only at h1 h2 ⊢
    rw [h1, h2] at *
    simp [h3, ratMul_eq, ratAdd_eq, intToRat_eq]

/-- Witness article for C7: a 2020 article matching only the broad term,
and only in content. -/
def broadOnlyArticle : ArchiveArticle :=
  { id := 7, date := { time := 1600000000000, year := 2020, valid := true },
    link := chars "https://example.com/c", title := chars "hello",
    content := chars "the cannabinoid story here", excerpt := [], tags := [],
    wordCount := 4 }

/-- Witness for C7 at the broad-only article: both penalties stack. -/
theorem penalty_stacking_witness :
    (scoreArticle broadOnlyArticle [chars "cbd"] [chars "cannabinoid"]).finalScore =
      ((scoreArticle broadOnlyArticle [chars "cbd"] [chars "cannabinoid"]).baseScore : Rat) *
        (scoreArticle broadOnlyArticle [chars "cbd"]
          [chars "cannabinoid"]).recencyMultiplier * mkRat 1 2 * mkRat 3 10 :=
  penalty_stacking broadOnlyArticle [chars "cbd"] [chars "cannabinoid"]
    (by decide) (by decide) (by decide)

/-!
## C3 — chunk ordering and source de-duplication
-/

/-- Membership in an insertion step. -/
theorem mem_insertLe {le : α → α → Bool} {a x : α} :
    ∀ {l : List α}, x ∈ insertLe le a l ↔ x = a ∨ x ∈ l := by
  intro l
  induction l with
  | nil => simp [insertLe]
  | cons b bs ih =>
    unfold insertLe
    split
    · rw [List.mem_cons, ih]
      constructor
      · rintro (h | h | h)
        · exact Or.inr (by simp [h])
        · exact Or.inl h
        · exact Or.inr (List.mem_cons_of_mem b h)
      · rintro (h | h)
        · exact Or.inr (Or.inl h)
        · rcases List.mem_cons.mp h with h2 | h2
          · exact Or.inl h2
          · exact Or.inr (Or.inr h2)
    · simp [List.mem_cons]

/-- The stable sort preserves membership. -/
theorem mem_jsSortStable {le : α → α → Bool} {x : α} :
    ∀ {l : List α}, x ∈ jsSortStable le l ↔ x ∈ l := by
  intro l
  induction l with
  | nil => simp [jsSortStable]
  | cons a as ih =>
    unfold jsSortStable
    rw [mem_insertLe, ih, List.mem_cons]

/-- Inserting into a sorted list keeps it sorted, for a transitive, total
boolean order. -/
theorem pairwise_insertLe {le : α → α → Bool}
    (htrans : ∀ a b c, le a b = true → le b c = true → le a c = true)
    (htot : ∀ a b, le a b = true ∨ le b a = true) {a : α} :
    ∀ {l : List α}, l.Pairwise (fun x y => le x y = true) →
      (insertLe le a l).Pairwise (fun x y => le x y = true) := by
  intro l
  induction l with
  | nil => intro _; simp [insertLe]
  | cons b bs ih =>
    intro h
    have hhead := (List.pairwise_cons.mp h).1
    have htail := (List.pairwise_cons.mp h).2
    unfold insertLe
    split
    · rename_i hcond
      have hba : le b a = true := by
        cases h1 : le b a
        · rw [h1] at hcond
          simp at hcond
        · rfl
      refine List.pairwise_cons.mpr ⟨?_, ih htail⟩
      intro x hx
      rcases mem_insertLe.mp hx with h2 | h2
      · rw [h2]; exact hba
      · exact hhead x h2
    · rename_i hcond
      have hab : le a b = true := by
        rcases htot a b with h2 | h2
        · exact h2
        · by_cases h3 : le a b = true
          · exact h3
          · exact absurd (by simp [h2, h3]) hcond
      refine List.pairwise_cons.mpr ⟨?_, h⟩
      intro x hx
      rcases List.mem_cons.mp hx with h2 | h2
      · rw [h2]; exact hab
      · exact htrans a b x hab (hhead x h2)

/-- The stable sort sorts, for a transitive, total boolean order. -/
theorem pairwise_jsSortStable {le : α → α → Bool}
    (htrans : ∀ a b c, le a b = true → le b c = true → le a c = true)
    (htot : ∀ a b, le a b = true ∨ le b a = true) :
    ∀ (l : List α), (jsSortStable le l).Pairwise (fun x y => le x y = true) := by
  intro l
  induction l with
  | nil => simp [jsSortStable]
  | cons a as ih => exact pairwise_insertLe htrans htot ih

/-- Defined from the spec's words — "a deduplicated source list (one entry
per article id, first-seen order)" — for comparison with the code's
`sourceMap` fold. -/
def specSourcesByArticleId : List RetrievedChunk → List Int → List SourceRef
  | [], _ => []
  | c :: rest, seen =>
    if c.articleId ∈ seen then specSourcesByArticleId rest seen
    else mkSourceRef c :: specSourcesByArticleId rest (c.articleId :: seen)

/-- The spec-side dedup depends on the seen set only through membership. -/
theorem specSources_congr :
    ∀ (chunks : List RetrievedChunk) (s1 s2 : List Int),
      (∀ x, x ∈ s1 ↔ x ∈ s2) →
      specSourcesByArticleId chunks s1 = specSourcesByArticleId chunks s2 := by
  intro chunks
  induction chunks with
  | nil => intro s1 s2 _; rfl
  | cons c rest ih =>
    intro s1 s2 hss
    unfold specSourcesByArticleId
    by_cases h1 : c.articleId ∈ s1
    · rw [if_pos h1, if_pos ((hss _).mp h1)]
      exact ih s1 s2 hss
    · rw [if_neg h1, if_neg (fun h2 => h1 ((hss _).mpr h2))]
      refine congrArg _ (ih _ _ ?_)
      intro x
      simp [hss x]

/-- Keys present in the association list decide `insertIfAbsent`. -/
theorem any_key_iff {m : List (Int × SourceRef)} {k : Int} :
    m.any (fun kv => kv.1 = k) = true ↔ k ∈ m.map (fun kv => kv.1) := by
  rw [List.any_eq_true]
  constructor
  · rintro ⟨kv, hkv, hk⟩
    exact List.mem_map.mpr ⟨kv, hkv, (of_decide_eq_true hk).symm ▸ rfl⟩
  · intro h
    obtain ⟨kv, hkv, hk⟩ := List.mem_map.mp h
    exact ⟨kv, hkv, by simp [hk]⟩

/-- Lemma: `insertIfAbsent` with a present key is the identity. -/
theorem insertIfAbsent_pos {m : List (Int × SourceRef)} {c : RetrievedChunk}
    (hc : m.any (fun kv => kv.1 = c.articleId) = true) :
    insertIfAbsent m c = m := by
  unfold insertIfAbsent
  rw [if_pos hc]

/-- Lemma: `insertIfAbsent` with an absent key appends the new pair. -/
theorem insertIfAbsent_neg {m : List (Int × SourceRef)} {c : RetrievedChunk}
    (hc : ¬ m.any (fun kv => kv.1 = c.articleId) = true) :
    insertIfAbsent m c = m ++ [(c.articleId, mkSourceRef c)] := by
  unfold insertIfAbsent
  rw [if_neg hc]

/-- The code's `sourceMap` fold refines the spec-side dedup-by-article-id:
its values are the spec's sources past any prefix map. -/
theorem buildSourceMap_spec :
    ∀ (chunks : List RetrievedChunk) (m : List (Int × SourceRef)),
      (chunks.foldl insertIfAbsent m).map (fun kv => kv.2) =
        m.map (fun kv => kv.2) ++
          specSourcesByArticleId chunks (m.map (fun kv => kv.1)) := by
  intro chunks
  induction chunks with
  | nil => intro m; simp [specSourcesByArticleId]
  | cons c rest ih =>
    intro m
    rw [List.foldl_cons]
    have heq : ∀ seen, specSourcesByArticleId (c :: rest) seen =
        if c.articleId ∈ seen then specSourcesByArticleId rest seen
        else mkSourceRef c :: specSourcesByArticleId rest (c.articleId :: seen) :=
      fun seen => rfl
    by_cases hc : m.any (fun kv => kv.1 = c.articleId) = true
    · rw [insertIfAbsent_pos hc, ih, heq]
      rw [if_pos (any_key_iff.mp hc)]
    · rw [insertIfAbsent_neg hc, ih, heq]
      rw [if_neg (fun h => hc (any_key_iff.mpr h))]
      rw [List.map_append, List.map_append]
      simp only [List.map_cons, List.map_nil, List.append_assoc, List.cons_append,
        List.nil_append]
      refine congrArg _ (congrArg _ ?_)
      apply specSources_congr
      intro x
      simp [or_comm]

/-- Lemma: `sourcesOf` equals the spec-side dedup by article id. -/
theorem sourcesOf_eq_spec (chunks : List RetrievedChunk) :
    sourcesOf chunks = specSourcesByArticleId chunks [] := by
  unfold sourcesOf buildSourceMap
  rw [buildSourceMap_spec]
  simp

/-- The `sourceMap` fold keeps its keys duplicate-free. -/
theorem buildSourceMap_keys_nodup :
    ∀ (chunks : List RetrievedChunk) (m : List (Int × SourceRef)),
      (m.map (fun kv => kv.1)).Nodup →
      ((chunks.foldl insertIfAbsent m).map (fun kv => kv.1)).Nodup := by
  intro chunks
  induction chunks with
  | nil => intro m h; simpa using h
  | cons c rest ih =>
    intro m h
    rw [List.foldl_cons]
    by_cases hc : m.any (fun kv => kv.1 = c.articleId) = true
    · rw [insertIfAbsent_pos hc]
      exact ih m h
    · rw [insertIfAbsent_neg hc]
      apply ih
      rw [List.map_append]
      simp only [List.map_cons, List.map_nil]
      rw [List.nodup_append]
      refine ⟨h, by simp, ?_⟩
      intro x hx
      simp only [List.mem_singleton]
      intro hxc
      rw [hxc] at hx
      exact hc (any_key_iff.mpr hx)

/-- The chunk date order is transitive. -/
theorem chunkDateLe_trans : ∀ a b c : RetrievedChunk, chunkDateLe a b = true →
    chunkDateLe b c = true → chunkDateLe a c = true := by
  intro a b c hab hbc
  unfold chunkDateLe at *
  exact decide_eq_true (le_trans (of_decide_eq_true hab) (of_decide_eq_true hbc))

/-- The chunk date order is total. -/
theorem chunkDateLe_total : ∀ a b : RetrievedChunk,
    chunkDateLe a b = true ∨ chunkDateLe b a = true := by
  intro a b
  unfold chunkDateLe
  rcases le_total a.articleDate.time b.articleDate.time with h | h
  · exact Or.inl (decide_eq_true h)
  · exact Or.inr (decide_eq_true h)

/-- Two 2020/2021 articles with distinct ids but the same canonical URL. -/
def dupUrlArticle1 : ArchiveArticle :=
  { id := 1, date := { time := 100, year := 2020, valid := true },
    link := chars "https://mag.example/cbd", title := chars "cbd update",
    content := chars "cbd cbd cbd is discussed in this paragraph",
    excerpt := [], tags := [], wordCount := 8 }

/-- Second article sharing `dupUrlArticle1`'s URL. -/
def dupUrlArticle2 : ArchiveArticle :=
  { id := 2, date := { time := 200, year := 2021, valid := true },
    link := chars "https://mag.example/cbd", title := chars "cbd again",
    content := chars "cbd cbd cbd is discussed in another paragraph",
    excerpt := [], tags := [], wordCount := 8 }

/-- C3 counterexample: the source list is deduplicated by article id, not
by URL — two retrieved articles with distinct ids but the same URL yield a
sources list containing that URL twice. -/
theorem retrieve_sources_dup_url :
    ¬ (((retrieve [dupUrlArticle1, dupUrlArticle2] (chars "cbd") [] [] 15 25).sources.map
        (fun s => s.url)).Nodup) := by decide

/-- C3 amended: for every call to `retrieve`, the returned chunk list is
sorted non-decreasing by parent article publication date (oldest first),
and the sources list is deduplicated by parent article id — one entry per
article id, in first-occurrence order over the final chunk list (URLs are
only unique when distinct retrieved articles carry distinct URLs). -/
theorem retrieve_chunks_sorted_sources_by_id (archive : List ArchiveArticle)
    (name : JStr) (aliases broadTerms : List JStr) (maxA maxC : Nat) :
    ((retrieve archive name aliases broadTerms maxA maxC).chunks).Pairwise
      (fun a b => chunkDateLe a b = true) ∧
    (retrieve archive name aliases broadTerms maxA maxC).sources =
      specSourcesByArticleId
        (retrieve archive name aliases broadTerms maxA maxC).chunks [] ∧
    ((buildSourceMap (retrieve archive name aliases broadTerms maxA maxC).chunks).map
      (fun kv => kv.1)).Nodup := by
  refine ⟨?_, ?_, ?_⟩
  · exact pairwise_jsSortStable chunkDateLe_trans chunkDateLe_total _
  · exact sourcesOf_eq_spec _
  · exact buildSourceMap_keys_nodup _ [] (by simp)

/-!
## C10 — pre-2001 articles are never retrieved
-/

/-- Lemma: `splitStrFuel` always returns at least one piece. -/
theorem splitStrFuel_ne_nil (sep : JStr) :
    ∀ (fuel : Nat) (s : JStr), splitStrFuel sep fuel s ≠ [] := by
  intro fuel
  induction fuel with
  | zero => intro s; simp [splitStrFuel]
  | succ k ih =>
    intro s
    cases s with
    | nil => simp [splitStrFuel]
    | cons c rest =>
      unfold splitStrFuel
      split
      · simp
      · cases hrec : splitStrFuel sep k rest with
        | nil => simp
        | cons p ps => simp

/-- For a non-empty separator the occurrence count is non-negative. -/
theorem countOcc_nonneg {sep : JStr} (hsep : sep ≠ []) (s : JStr) :
    0 ≤ countOcc sep s := by
  unfold countOcc jsSplitStr
  rw [if_neg hsep]
  have hne := splitStrFuel_ne_nil sep s.length s
  have hlen : 0 < (splitStrFuel sep s.length s).length := List.length_pos.mpr hne
  omega

/-- The non-negativity invariant of the scorer's accumulators. -/
def AccNonneg (st : ScanAcc) : Prop :=
  0 ≤ st.titleTag ∧ 0 ≤ st.content ∧ 0 ≤ st.density

/-- One scan step preserves non-negativity when the term is non-empty. -/
theorem scanStep_nonneg {titleLower contentLower : JStr} {withDensity : Bool}
    {st : ScanAcc} {term : JStr} (hterm : term ≠ []) (h : AccNonneg st) :
    AccNonneg (scanStep titleLower contentLower withDensity st term) := by
  obtain ⟨h1, h2, h3⟩ := h
  have hocc := countOcc_nonneg hterm contentLower
  have hmin : (0 : Int) ≤ min (countOcc term contentLower * 2) 20 :=
    le_min (by omega) (by decide)
  unfold scanStep
  split
  all_goals dsimp only
  all_goals split
  all_goals split
  all_goals exact ⟨by dsimp only; omega, by dsimp only; omega, by dsimp only; omega⟩

/-- The scan fold preserves non-negativity over non-empty terms. -/
theorem scanFold_nonneg {titleLower contentLower : JStr} {withDensity : Bool} :
    ∀ {terms : List JStr}, (∀ t ∈ terms, t ≠ []) → ∀ {st : ScanAcc}, AccNonneg st →
      AccNonneg (terms.foldl (scanStep titleLower contentLower withDensity) st) := by
  intro terms
  induction terms with
  | nil => intro _ st h; simpa using h
  | cons t rest ih =>
    intro hts st h
    rw [List.foldl_cons]
    exact ih (fun u hu => hts u (List.mem_cons_of_mem t hu))
      (scanStep_nonneg (hts t (List.mem_cons_self t rest)) h)

/-- The `article` field of a score record is the scored article. -/
theorem scoreArticle_article (article : ArchiveArticle) (S B : List JStr) :
    (scoreArticle article S B).article = article := by
  unfold scoreArticle
  dsimp only
  split <;> rfl

/-- Lemma: `mkRat 1 10` as a division. -/
theorem mkRat_one_ten : (mkRat 1 10 : Rat) = 1 / 10 := by
  norm_num [Rat.mkRat_eq_divInt, Rat.divInt_eq_div]

/-- Lemma: `mkRat 1 2` is positive. -/
theorem mkRat_half_pos : (0 : Rat) < mkRat 1 2 := by
  norm_num [Rat.mkRat_eq_divInt, Rat.divInt_eq_div]

/-- Lemma: `mkRat 3 10` is positive. -/
theorem mkRat_three_tenths_pos : (0 : Rat) < mkRat 3 10 := by
  norm_num [Rat.mkRat_eq_divInt, Rat.divInt_eq_div]

/-- Terms emitted by `expandTerms` are never empty. -/
theorem expandTerms_ne_nil {raw : List JStr} {t : JStr} (ht : t ∈ expandTerms raw) :
    t ≠ [] := by
  intro h
  have := (expandTerms_props ht).1
  rw [h] at this
  simp at this

/-- C10's scoring half: over non-empty term lists, an article whose
(`|| 2015`-defaulted) publication year is at most 2000 gets a final score
of at most 0, however large its base score. -/
theorem scoreArticle_nonpos_of_year (article : ArchiveArticle) (S B : List JStr)
    (hS : ∀ t ∈ S, t ≠ []) (hB : ∀ t ∈ B, t ≠ [])
    (hyear : yearOr2015 article.date ≤ 2000) :
    (scoreArticle article S B).finalScore ≤ 0 := by
  have hspec : AccNonneg (scanSpecific (jsToLower article.title)
      (jsToLower article.content) S) :=
    scanFold_nonneg hS ⟨le_refl 0, le_refl 0, le_refl 0⟩
  have hbroad : AccNonneg (scanBroad (jsToLower article.title)
      (jsToLower article.content)
      (scanSpecific (jsToLower article.title) (jsToLower article.content) S) B) := by
    unfold scanBroad
    exact scanFold_nonneg hB ⟨hspec.1, hspec.2.1, hspec.2.2⟩
  unfold scoreArticle
  dsimp only
  split
  · dsimp only
    exact le_refl 0
  · dsimp only
    simp only [ratMul_eq, ratAdd_eq, intToRat_eq]
    obtain ⟨hb1, hb2, hb3⟩ := hbroad
    set sB := scanBroad (jsToLower article.title) (jsToLower article.content)
      (scanSpecific (jsToLower article.title) (jsToLower article.content) S) B
    have hbase : (0 : Rat) ≤ ((sB.titleTag + sB.content + sB.density : Int) : Rat) := by
      have : (0 : Int) ≤ sB.titleTag + sB.content + sB.density := by omega
      exact_mod_cast this
    have hrec : (1 : Rat) + ((yearOr2015 article.date - 2010 : Int) : Rat) * mkRat 1 10 ≤ 0 := by
      rw [mkRat_one_ten]
      have hy : ((yearOr2015 article.date : Int) : Rat) ≤ 2000 := by exact_mod_cast hyear
      push_cast
      linarith
    have hpr : (0 : Rat) < (if sB.titleTag = 0 then mkRat 1 2 else 1) := by
      split
      · exact mkRat_half_pos
      · norm_num
    have hbr : (0 : Rat) < (if (decide ((scanSpecific (jsToLower article.title)
        (jsToLower article.content) S).flag = false) && sB.flag) = true
        then mkRat 3 10 else 1) := by
      split
      · exact mkRat_three_tenths_pos
      · norm_num
    have h1 : ((sB.titleTag + sB.content + sB.density : Int) : Rat) *
        (1 + ((yearOr2015 article.date - 2010 : Int) : Rat) * mkRat 1 10) ≤ 0 :=
      mul_nonpos_iff.mpr (Or.inl ⟨hbase, hrec⟩)
    have h2 := mul_nonpos_iff.mpr (Or.inr ⟨h1, le_of_lt hpr⟩)
    exact mul_nonpos_iff.mpr (Or.inr ⟨h2, le_of_lt hbr⟩)

/-- Contrapositive of `scoreArticle_nonpos_of_year`: a strictly positive
final score forces a post-2000 year. -/
theorem year_of_scoreArticle_pos {article : ArchiveArticle} {S B : List JStr}
    (hS : ∀ t ∈ S, t ≠ []) (hB : ∀ t ∈ B, t ≠ [])
    (hpos : 0 < (scoreArticle article S B).finalScore) :
    2000 < yearOr2015 article.date := by
  by_contra hy
  have := scoreArticle_nonpos_of_year article S B hS hB (by omega)
  exact absurd hpos (not_lt.mpr this)

/-- Chunks appended for one article carry that article's date. -/
theorem appendChunks_mem {entry : ArticleScore} {maxT : Nat} :
    ∀ (texts : List JStr) (idx : Nat) (acc : List RetrievedChunk)
      (c : RetrievedChunk), c ∈ appendChunks entry maxT texts idx acc →
      c ∈ acc ∨ c.articleDate = entry.article.date := by
  intro texts
  induction texts with
  | nil =>
    intro idx acc c hc
    exact Or.inl hc
  | cons t rest ih =>
    intro idx acc c hc
    rw [appendChunks] at hc
    revert hc
    split
    · intro hc
      rcases List.mem_append.mp hc with h | h
      · exact Or.inl h
      · have : c = mkChunk entry idx t := by simpa using h
        rw [this]
        exact Or.inr rfl
    · intro hc
      rcases ih (idx + 1) _ c hc with h | h
      · rcases List.mem_append.mp h with h2 | h2
        · exact Or.inl h2
        · have : c = mkChunk entry idx t := by simpa using h2
          rw [this]
          exact Or.inr rfl
      · exact Or.inr h

/-- Every collected chunk carries the date of one of the selected
articles. -/
theorem collectChunks_mem {maxT : Nat} :
    ∀ (tops : List ArticleScore) (acc : List RetrievedChunk)
      (c : RetrievedChunk), c ∈ collectChunks maxT tops acc →
      c ∈ acc ∨ ∃ e ∈ tops, c.articleDate = e.article.date := by
  intro tops
  induction tops with
  | nil =>
    intro acc c hc
    exact Or.inl hc
  | cons entry rest ih =>
    intro acc c hc
    rw [collectChunks] at hc
    revert hc
    split
    · intro hc
      rcases appendChunks_mem _ _ _ _ hc with h | h
      · exact Or.inl h
      · exact Or.inr ⟨entry, List.mem_cons_self entry rest, h⟩
    · intro hc
      rcases ih _ c hc with h | h
      · rcases appendChunks_mem _ _ _ _ h with h2 | h2
        · exact Or.inl h2
        · exact Or.inr ⟨entry, List.mem_cons_self entry rest, h2⟩
      · obtain ⟨e, he, hd⟩ := h
        exact Or.inr ⟨e, List.mem_cons_of_mem entry he, hd⟩

/-- C10: the recency multiplier makes a year ≤ 2000 article score ≤ 0 under
the term lists `retrieve` builds, and `retrieve`'s `finalScore > 0` filter
therefore excludes it: every chunk `retrieve` returns has a parent article
publication year of at least 2001. -/
theorem retrieve_excludes_pre2001 (archive : List ArchiveArticle)
    (conceptName : JStr) (aliases broadTerms : List JStr) (maxA maxC : Nat) :
    (∀ article ∈ archive, yearOr2015 article.date ≤ 2000 →
      (scoreArticle article (expandTerms (conceptName :: aliases))
        (expandTerms broadTerms)).finalScore ≤ 0) ∧
    (∀ c ∈ (retrieve archive conceptName aliases broadTerms maxA maxC).chunks,
      2000 < yearOr2015 c.articleDate) := by
  constructor
  · intro article _ hyear
    exact scoreArticle_nonpos_of_year article _ _
      (fun t ht => expandTerms_ne_nil ht) (fun t ht => expandTerms_ne_nil ht) hyear
  · intro c hc
    have hc2 : c ∈ collectChunks maxC
        ((jsSortStable scoreDescLe
          (((archive.map (fun a => scoreArticle a (expandTerms (conceptName :: aliases))
            (expandTerms broadTerms))).filter (fun s => 0 < s.finalScore)))).take maxA) [] :=
      mem_jsSortStable.mp hc
    rcases collectChunks_mem _ _ _ hc2 with h | h
    · exact absurd h (by simp)
    · obtain ⟨e, he, hd⟩ := h
      have he2 : e ∈ jsSortStable scoreDescLe
          ((archive.map (fun a => scoreArticle a (expandTerms (conceptName :: aliases))
            (expandTerms broadTerms))).filter (fun s => 0 < s.finalScore)) :=
        List.mem_of_mem_take he
      have he3 := mem_jsSortStable.mp he2
      have hefil := List.mem_filter.mp he3
      obtain ⟨a, _, hae⟩ := List.mem_map.mp hefil.1
      have hepos : 0 < e.finalScore := of_decide_eq_true hefil.2
      rw [← hae] at hepos
      have hyear := year_of_scoreArticle_pos
        (fun t ht => expandTerms_ne_nil ht) (fun t ht => expandTerms_ne_nil ht) hepos
      rw [hd, ← hae, scoreArticle_article]
      exact hyear

/-- A pre-2001 article for the C10 witness. -/
def ancientArticle : ArchiveArticle :=
  { id := 9, date := { time := -100, year := 1999, valid := true },
    link := chars "https://example.com/old", title := chars "cbd news",
    content := chars "cbd cbd cbd text that is long enough here",
    excerpt := [], tags := [], wordCount := 8 }

/-- Witness for C10: the 1999 article scores at most 0 despite matching the
terms. -/
theorem retrieve_excludes_pre2001_witness :
    (scoreArticle ancientArticle (expandTerms (chars "cbd" :: []))
      (expandTerms [])).finalScore ≤ 0 :=
  (retrieve_excludes_pre2001 [ancientArticle] (chars "cbd") [] [] 15 25).1
    ancientArticle (by decide) (by decide)
